import Mathlib

/-!
Verification of the SceneGraph patch/drift/translate core of formatlab-studio
(`src/backend/app`), shallowly embedded in Lean.

Python JSON-compatible values (`dict`/`list`/`str`/`int`/`float`/`bool`/`None`)
are modelled by `JVal`.  Python `dict`s are association lists in insertion
order (CPython preserves insertion order); `int` and `float` collapse into a
single rational-number constructor, which matches the spec's rule that the two
numeric shapes are the same numeric kind for comparison purposes.  Python's
`==` is modelled by `pyEq` (note `True == 1` and `1 == 1.0` hold in Python),
and Python truthiness by `pyTruthy`.
-/

namespace FormatLab

inductive JVal where
  | num (q : ℚ)
  | bool (b : Bool)
  | str (s : String)
  | null
  | obj (fields : List (String × JVal))
  | arr (elems : List JVal)

abbrev Fields := List (String × JVal)

/-- First-occurrence lookup in an association list (Python `d.get(k)` /
`d[k]` on a duplicate-free dict). -/
def lookupF : Fields → String → Option JVal
  | [], _ => none
  | (k, v) :: tl, key => if k = key then some v else lookupF tl key

/-- The keys of an association list, in order. -/
def keysF : Fields → List String
  | [] => []
  | (k, _) :: tl => k :: keysF tl

/-- Replace the value at an existing key (first occurrence); no-op when the
key is absent. -/
def setF : Fields → String → JVal → Fields
  | [], _, _ => []
  | (k, v) :: tl, key, w => if k = key then (k, w) :: tl else (k, v) :: setF tl key w

/-- Remove the first occurrence of a key (Python `del d[k]`). -/
def eraseF : Fields → String → Fields
  | [], _ => []
  | (k, v) :: tl, key => if k = key then tl else (k, v) :: eraseF tl key

/-- Python `d[k] = v`: replace in place if the key exists, else append
(insertion order). -/
def upsertF : Fields → String → JVal → Fields
  | [], key, w => [(key, w)]
  | (k, v) :: tl, key, w => if k = key then (k, w) :: tl else (k, v) :: upsertF tl key w

/-- `true` when the list of strings has no duplicates; Python dicts always
have duplicate-free keys, and `wfV` below imposes this on embedded documents. -/
def strNodup : List String → Bool
  | [] => true
  | k :: tl => (!tl.contains k) && strNodup tl

/-- Every key of `g` occurs in `f`. -/
def keysSub (g f : Fields) : Bool :=
  g.all (fun p => (lookupF f p.1).isSome)

mutual
/-- Python `==` on JSON-compatible values: numbers compare by value across
int/float/bool (`True == 1`), dicts compare as unordered key-value maps,
lists positionally, and distinct kinds compare unequal. -/
def pyEq : JVal → JVal → Bool
  | .num a, .num b => a == b
  | .num a, .bool b => a == (if b then 1 else 0)
  | .bool a, .num b => (if a then (1 : ℚ) else 0) == b
  | .bool a, .bool b => a == b
  | .str a, .str b => a == b
  | .null, .null => true
  | .obj f, .obj g => pyEqSub f g && keysSub g f
  | .arr a, .arr b => pyEqElems a b
  | _, _ => false

/-- Every binding of the first dict is matched (under `pyEq`) in the second. -/
def pyEqSub : Fields → Fields → Bool
  | [], _ => true
  | (k, v) :: tl, g =>
    (match lookupF g k with
     | some w => pyEq v w
     | none => false) && pyEqSub tl g

/-- Positional `pyEq` on lists of equal length. -/
def pyEqElems : List JVal → List JVal → Bool
  | [], [] => true
  | a :: as, b :: bs => pyEq a b && pyEqElems as bs
  | _, _ => false
end

/-- `pyEq` lifted to `Option` (absent keys are equal to absent keys only). -/
def optPyEq : Option JVal → Option JVal → Bool
  | none, none => true
  | some a, some b => pyEq a b
  | _, _ => false

/-- Python truthiness of a JSON-compatible value (`bool(v)`). -/
def pyTruthy : JVal → Bool
  | .num q => q != 0
  | .bool b => b
  | .str s => s != ""
  | .null => false
  | .obj f => !f.isEmpty
  | .arr a => !a.isEmpty

/-- `isinstance(v, (int, float))` — in Python this includes booleans, since
`bool` is a subclass of `int`. -/
def isNumV : JVal → Bool
  | .num _ => true
  | .bool _ => true
  | _ => false

mutual
/-- Representation invariant: every dict in the tree has duplicate-free keys.
Python dicts satisfy this by construction. -/
def wfV : JVal → Bool
  | .obj f => strNodup (keysF f) && wfFields f
  | .arr a => wfElems a
  | _ => true

def wfFields : Fields → Bool
  | [] => true
  | (_, v) :: tl => wfV v && wfFields tl

def wfElems : List JVal → Bool
  | [] => true
  | v :: tl => wfV v && wfElems tl
end

mutual
/-- Size measure used for strong induction over `JVal`. -/
def sizeV : JVal → Nat
  | .obj f => sizeFields f + 1
  | .arr a => sizeElems a + 1
  | _ => 1

def sizeFields : Fields → Nat
  | [] => 0
  | (_, v) :: tl => sizeV v + sizeFields tl + 1

def sizeElems : List JVal → Nat
  | [] => 0
  | v :: tl => sizeV v + sizeElems tl + 1
end

/-!
Patch Engine — `src/backend/app/services/patcher.py`.

`apply_patch` and `generate_patch` delegate the per-operation RFC6902
semantics to the `jsonpatch` library, whose code is not part of this
repository; those semantics are modelled from the spec (§3 "JSON Patch
Operation", §4.1 `apply`/`generate`).  JSON-pointer paths are embedded in
pre-parsed form: a path is the list of its reference tokens (`Tok`), where a
token that consists of digits has been parsed to `Tok.idx` and any other
token is `Tok.key`.  Against a dict, either token form is used as the string
key (as `jsonpatch` does); against a list, only an index token is valid.
-/

/-- One reference token of a JSON pointer, pre-parsed. -/
inductive Tok where
  | key (s : String)
  | idx (n : Nat)

abbrev PPath := List Tok

/-- An RFC6902 operation (the `op`/`path`/`value`/`from` shapes of §3). -/
inductive Op where
  | add (path : PPath) (value : JVal)
  | remove (path : PPath)
  | replace (path : PPath) (value : JVal)
  | move (src path : PPath)
  | copy (src path : PPath)
  | test (path : PPath) (value : JVal)

/-- Errors surfaced by the embedded Python functions. -/
inductive PyErr where
  | attributeError (msg : String)
  | keyError (k : String)
  | valueError (msg : String)
  | patchError (msg : String)

/-- The string key a token denotes when it is resolved against a dict
(`jsonpatch` reuses a numeric-looking token as a plain dict key). -/
def Tok.asKey : Tok → String
  | .key s => s
  | .idx n => Nat.repr n

/-- Resolve a pointer against a document (used by `move`/`copy`/`test`). -/
def getAt : JVal → PPath → Except PyErr JVal
  | d, [] => .ok d
  | .obj f, t :: rest =>
    match lookupF f t.asKey with
    | some sub => getAt sub rest
    | none => .error (.patchError "member does not exist")
  | .arr a, .idx n :: rest =>
    match a.get? n with
    | some sub => getAt sub rest
    | none => .error (.patchError "index out of range")
  | .arr _, .key _ :: _ => .error (.patchError "list index must be an integer")
  | _, _ :: _ => .error (.patchError "cannot resolve pointer into a scalar")

/-- RFC6902 `add`: at the root it replaces the whole document; in a dict it
inserts or overwrites the key; in a list it inserts at an index `≤ len`.
The parent of the target must already exist. -/
def doAdd : JVal → PPath → JVal → Except PyErr JVal
  | _, [], v => .ok v
  | .obj f, [t], v => .ok (.obj (upsertF f t.asKey v))
  | .arr a, [.idx n], v =>
    if n ≤ a.length then .ok (.arr (a.insertIdx n v))
    else .error (.patchError "index out of range")
  | .arr _, [.key _], _ => .error (.patchError "list index must be an integer")
  | .obj f, t :: rest, v =>
    match lookupF f t.asKey with
    | some sub => (doAdd sub rest v).map (fun s => .obj (setF f t.asKey s))
    | none => .error (.patchError "member does not exist")
  | .arr a, .idx n :: rest, v =>
    match a.get? n with
    | some sub => (doAdd sub rest v).map (fun s => .arr (a.set n s))
    | none => .error (.patchError "index out of range")
  | .arr _, .key _ :: _, _ => .error (.patchError "list index must be an integer")
  | _, _ :: _, _ => .error (.patchError "cannot resolve pointer into a scalar")

/-- RFC6902 `remove`: the target must exist; the root cannot be removed. -/
def doRemove : JVal → PPath → Except PyErr JVal
  | _, [] => .error (.patchError "cannot remove the root document")
  | .obj f, [t] =>
    match lookupF f t.asKey with
    | some _ => .ok (.obj (eraseF f t.asKey))
    | none => .error (.patchError "member does not exist")
  | .arr a, [.idx n] =>
    if n < a.length then .ok (.arr (a.eraseIdx n))
    else .error (.patchError "index out of range")
  | .arr _, [.key _] => .error (.patchError "list index must be an integer")
  | .obj f, t :: rest =>
    match lookupF f t.asKey with
    | some sub => (doRemove sub rest).map (fun s => .obj (setF f t.asKey s))
    | none => .error (.patchError "member does not exist")
  | .arr a, .idx n :: rest =>
    match a.get? n with
    | some sub => (doRemove sub rest).map (fun s => .arr (a.set n s))
    | none => .error (.patchError "index out of range")
  | .arr _, .key _ :: _ => .error (.patchError "list index must be an integer")
  | _, _ :: _ => .error (.patchError "cannot resolve pointer into a scalar")

/-- RFC6902 `replace`: the target must already exist. -/
def doReplace : JVal → PPath → JVal → Except PyErr JVal
  | _, [], v => .ok v
  | .obj f, [t], v =>
    match lookupF f t.asKey with
    | some _ => .ok (.obj (setF f t.asKey v))
    | none => .error (.patchError "member does not exist")
  | .arr a, [.idx n], v =>
    if n < a.length then .ok (.arr (a.set n v))
    else .error (.patchError "index out of range")
  | .arr _, [.key _], _ => .error (.patchError "list index must be an integer")
  | .obj f, t :: rest, v =>
    match lookupF f t.asKey with
    | some sub => (doReplace sub rest v).map (fun s => .obj (setF f t.asKey s))
    | none => .error (.patchError "member does not exist")
  | .arr a, .idx n :: rest, v =>
    match a.get? n with
    | some sub => (doReplace sub rest v).map (fun s => .arr (a.set n s))
    | none => .error (.patchError "index out of range")
  | .arr _, .key _ :: _, _ => .error (.patchError "list index must be an integer")
  | _, _ :: _, _ => .error (.patchError "cannot resolve pointer into a scalar")

/-- Apply a single operation (spec §3: operations are applied sequentially;
`move` is fetch-remove-add, `copy` is fetch-add, `test` compares with `==`). -/
def applyOp (d : JVal) : Op → Except PyErr JVal
  | .add p v => doAdd d p v
  | .remove p => doRemove d p
  | .replace p v => doReplace d p v
  | .move src p => do
    let v ← getAt d src
    let d' ← doRemove d src
    doAdd d' p v
  | .copy src p => do
    let v ← getAt d src
    doAdd d p v
  | .test p v => do
    let w ← getAt d p
    if pyEq w v then .ok d else .error (.patchError "test operation failed")

/-- Apply a sequence of operations left to right, stopping at the first
failure (the working-copy loop of `jsonpatch.JsonPatch.apply`). -/
def applyOps : JVal → List Op → Except PyErr JVal
  | d, [] => .ok d
  | d, op :: tl =>
    match applyOp d op with
    | .ok d' => applyOps d' tl
    | .error e => .error e

/-- Embeds `apply_patch` (patcher.py lines 10-28): an empty operation list
returns a deep copy of the base (deep copies are identities in this value
model); otherwise the patch is applied to a working copy, and any failure is
re-raised as `ValueError("Failed to apply patch: ...")`.  The caller's
document is never written to: `jsonpatch.JsonPatch.apply` deep-copies its
input before mutating (its default is `in_place=False`). -/
def apply_patch (base_scene : JVal) (patch_ops : List Op) : Except PyErr JVal :=
  match patch_ops with
  | [] => .ok base_scene
  | ops =>
    match applyOps base_scene ops with
    | .ok d => .ok d
    | .error _ => .error (.valueError "Failed to apply patch")

/-- Prefix every path of an operation with one leading token (used to restate
a diff computed on a sub-document at its enclosing position). -/
def Op.under (t : Tok) : Op → Op
  | .add p v => .add (t :: p) v
  | .remove p => .remove (t :: p)
  | .replace p v => .replace (t :: p) v
  | .move src p => .move (t :: src) (t :: p)
  | .copy src p => .copy (t :: src) (t :: p)
  | .test p v => .test (t :: p) v

/-- `add` operations for the keys of the modified dict that the original
lacks. -/
def addsFor : Fields → Fields → List Op
  | [], _ => []
  | (k, w) :: tl, f =>
    (match lookupF f k with
     | some _ => []
     | none => [.add [.key k] w]) ++ addsFor tl f

mutual
/-- Modelled from the spec: `jsonpatch.JsonPatch.from_diff` (spec §4.1
`generate`): recurse into mapping keys present on both sides, emit `replace`
for changed scalars or type changes, `remove`/`add` for key-presence
differences; matching-length lists are diffed positionally and a length
change falls back to a whole-value `replace`.  Paths are relative to the
node being diffed. -/
def diffOps : JVal → JVal → List Op
  | .obj f, .obj g => diffFields f g ++ addsFor g f
  | .arr a, .arr b =>
    if a.length = b.length then diffElems 0 a b
    else [.replace [] (.arr b)]
  | x, y => if pyEq x y then [] else [.replace [] y]

/-- Per-key part of the dict diff, iterating the original's bindings:
a key absent from the modified side becomes `remove`, a key present on both
sides is diffed recursively under that key. -/
def diffFields : Fields → Fields → List Op
  | [], _ => []
  | (k, v) :: tl, g =>
    (match lookupF g k with
     | some w => (diffOps v w).map (Op.under (.key k))
     | none => [.remove [.key k]]) ++ diffFields tl g

/-- Positional part of the list diff for matching-length lists. -/
def diffElems : Nat → List JVal → List JVal → List Op
  | _, [], _ => []
  | _, _ :: _, [] => []
  | i, x :: xs, y :: ys => (diffOps x y).map (Op.under (.idx i)) ++ diffElems (i + 1) xs ys
end

/-- Embeds `generate_patch` (patcher.py lines 31-46): structural diff between
the two documents (`jsonpatch.JsonPatch.from_diff`, modelled above). -/
def generate_patch (original modified : JVal) : List Op :=
  diffOps original modified

/-- Embeds `merge_patches` (patcher.py lines 78-90): concatenation. -/
def merge_patches (patch1 patch2 : List Op) : List Op :=
  patch1 ++ patch2

/-!
`validate_patch_operations` inspects raw (unparsed) operations, so it is
embedded over raw `JVal` dicts.  Its error messages are Python f-strings;
the embedded messages keep the fixed text.  Note the missing-fields message
interpolates only the constant `required_fields` set — it contains nothing
from the offending operation.  (The braces and quotes Python's set repr
would print are elided from the embedded string; nothing below depends on
them.)
-/

/-- The six RFC6902 verbs (patcher.py line 60). -/
def valid_ops : List String := ["add", "remove", "replace", "move", "copy", "test"]

/-- A rendering of a JSON value used to build the `Invalid patch operation`
message (approximates Python's str()). -/
def reprLite : JVal → String
  | .num q => toString q
  | .bool b => if b then "True" else "False"
  | .str s => s
  | .null => "None"
  | .obj _ => "dict"
  | .arr _ => "list"

/-- The checks of one loop iteration of `validate_patch_operations`
(patcher.py lines 62-73): the operation must be a dict containing at least
`op` and `path`, `op` must be one of the six verbs, and `path` must be a
string; the first violated check raises `ValueError`. -/
def checkOp : JVal → Except PyErr Unit
  | .obj f =>
    if !((lookupF f "op").isSome && (lookupF f "path").isSome) then
      .error (.valueError "Patch operation missing required fields: op, path")
    else
      match lookupF f "op" with
      | some (.str s) =>
        if s ∈ valid_ops then
          match lookupF f "path" with
          | some (.str _) => .ok ()
          | some v => .error (.valueError ("Patch path must be string, got " ++ reprLite v))
          | none => .error (.valueError "Patch path must be string, got None")
        else .error (.valueError ("Invalid patch operation: " ++ s))
      | some v => .error (.valueError ("Invalid patch operation: " ++ reprLite v))
      | none => .error (.valueError "Invalid patch operation: None")
  | v => .error (.valueError ("Patch operation must be dict, got " ++ reprLite v))

/-- Embeds `validate_patch_operations` (patcher.py lines 49-75): run the
checks above over each operation in order, raising at the first violation,
and return `True` when every operation passes.  No pointer-resolution
(semantic) check is performed — compare `apply_patch`, which is where
resolution failures surface. -/
def validate_patch_operations : List JVal → Except PyErr Bool
  | [] => .ok true
  | op :: tl => (checkOp op).bind (fun _ => validate_patch_operations tl)

/-!
Drift Meter — `src/backend/app/services/drift.py`.
-/

/-- Embeds `get_modified_keys` (drift.py lines 43-72).  Line 54 rebinds the
local name `modified` to a fresh empty `set()` (shadowing the parameter of
the same name); line 57 then evaluates
`set(original.keys()) | set(modified.keys())`, where `modified` now denotes
that set, and `set` objects have no `.keys()` method — so the call raises
`AttributeError` unconditionally, before any key is compared.  The rest of
the body (lines 59-72) is unreachable. -/
def get_modified_keys (original modified : JVal) : Except PyErr (List String) :=
  .error (.attributeError "'set' object has no attribute 'keys'")

/-- Dedup keeping the first occurrence (stands in for Python's `set` where
only membership and cardinality are observed). -/
def dedupStr : List String → List String
  | [] => []
  | k :: tl => if tl.contains k then dedupStr tl else k :: dedupStr tl

mutual
/-- Embeds `get_all_keys` (drift.py lines 75-95): every dotted key path in
the object, nested dicts included (a non-dict argument has no keys). -/
def get_all_keys (obj : JVal) (pre : String := "") : List String :=
  match obj with
  | .obj f => allKeysFields f pre
  | _ => []

def allKeysFields : Fields → String → List String
  | [], _ => []
  | (k, v) :: tl, pre =>
    let full_key := if pre = "" then k else pre ++ "." ++ k
    (full_key :: get_all_keys v full_key) ++ allKeysFields tl pre
end

/-- Embeds `calculate_drift_score` (drift.py lines 10-40).  Equal documents
short-circuit to `0.0`; any other pair reaches `get_modified_keys`, which
raises (see above), so the remainder of the body — kept here verbatim — is
dead code. -/
def calculate_drift_score (original modified : JVal) : Except PyErr ℚ := do
  if pyEq original modified then
    .ok 0
  else
    let modified_keys ← get_modified_keys original modified
    if modified_keys.isEmpty then
      .ok 0
    else
      let all_keys := dedupStr (get_all_keys original ++ get_all_keys modified)
      if all_keys.isEmpty then
        .ok 0
      else
        .ok (min 1 ((modified_keys.length : ℚ) / (all_keys.length : ℚ)))

mutual
/-- The `compare_recursively` worker of `get_numeric_differences` (drift.py
lines 113-124): recurse only into values that are dicts on both sides;
record `path ↦ (old, new)` for leaves that are numeric on both sides (via
`isinstance(..., (int, float))`, which includes booleans) and compare
unequal under `==`.  Keys present on only one side are skipped (`dict.get`
yields `None`, which is neither numeric nor a dict).  The iteration order of
Python's key set is unspecified; this embedding iterates the original's
bindings first, so only order-insensitive facts are proved about the
result. -/
def numDiffVal : JVal → JVal → String → List (String × JVal × JVal)
  | .obj f, .obj g, path => numDiffFields f g path
  | _, _, _ => []

def numDiffFields : Fields → Fields → String → List (String × JVal × JVal)
  | [], _, _ => []
  | (k, v) :: tl, g, path =>
    let new_path := if path = "" then k else path ++ "/" ++ k
    (match lookupF g k with
     | some w =>
       if isNumV v && isNumV w then
         if !pyEq v w then [(new_path, v, w)] else []
       else
         match v, w with
         | .obj _, .obj _ => numDiffVal v w new_path
         | _, _ => []
     | none => []) ++ numDiffFields tl g path
end

/-- Embeds `get_numeric_differences` (drift.py lines 98-127). -/
def get_numeric_differences (original modified : JVal) : List (String × JVal × JVal) :=
  numDiffVal original modified ""

/-- Python `d.get(k)` (default `None`). -/
def pyGet (d : Fields) (k : String) : JVal :=
  match lookupF d k with
  | some v => v
  | none => .null

/-- Python `d.get(k, default)`. -/
def pyGetD (d : Fields) (k : String) (dflt : JVal) : JVal :=
  match lookupF d k with
  | some v => v
  | none => dflt

/-- Python attribute-style `.get` on a value that may not be a dict: a
non-dict receiver raises `AttributeError`. -/
def jGet (v : JVal) (k : String) : Except PyErr JVal :=
  match v with
  | .obj f => .ok (pyGet f k)
  | _ => .error (.attributeError "object has no attribute 'get'")

/-- As `jGet` with an explicit default. -/
def jGetD (v : JVal) (k : String) (dflt : JVal) : Except PyErr JVal :=
  match v with
  | .obj f => .ok (pyGetD f k dflt)
  | _ => .error (.attributeError "object has no attribute 'get'")

/-- Embeds `check_constraint_violations` (drift.py lines 178-213): reads the
locks from `original.constraints` with `dict.get` and compares sections with
`!=`.  Note the subject lock is read from the key `"lock_subject"` — not
`"lock_subject_identity"`, the flag named by the data model and written by
the rule translator (translate.py line 97) and the analyzer defaults
(analyze.py line 85). -/
def check_constraint_violations (original modified : JVal) : Except PyErr (List String) := do
  let constraints ← jGetD original "constraints" (.obj [])
  let sub ← jGetD constraints "lock_subject" (.bool false)
  let v1 ←
    if pyTruthy sub then do
      let a ← jGet original "subject"
      let b ← jGet modified "subject"
      pure (if !pyEq a b then ["Subject identity was locked but was modified"] else [])
    else pure []
  let comp ← jGetD constraints "lock_composition" (.bool false)
  let v2 ←
    if pyTruthy comp then do
      let orig_camera ← jGetD original "camera" (.obj [])
      let mod_camera ← jGetD modified "camera" (.obj [])
      pure (if !pyEq orig_camera mod_camera then ["Composition was locked but camera settings changed"] else [])
    else pure []
  let pal ← jGetD constraints "lock_palette" (.bool false)
  let v3 ←
    if pyTruthy pal then do
      let orig_color ← jGetD original "color" (.obj [])
      let mod_color ← jGetD modified "color" (.obj [])
      let a ← jGet orig_color "palette"
      let b ← jGet mod_color "palette"
      pure (if !pyEq a b then ["Palette was locked but was modified"] else [])
    else pure []
  .ok (v1 ++ v2 ++ v3)

/-- Result record of `calculate_bounded_drift`.  The Python code renders each
bound violation as the f-string
`f"{key} value {new} violates bounds [{min_val}, {max_val}]"`; the embedding
keeps the violation structured as `(key, new, min, max)` since nothing in the
spec's claims depends on the rendered text. -/
structure BoundedDriftResult where
  drift_score : ℚ
  bound_violations : List (String × JVal × ℚ × ℚ)
  is_valid : Bool

/-- Numeric comparison of a recorded new value against a bound (`new <
min_val or new > max_val`; booleans compare as 0/1, as in Python). -/
def numProj : JVal → ℚ
  | .num q => q
  | .bool b => if b then 1 else 0
  | _ => 0

/-- Embeds `calculate_bounded_drift` (drift.py lines 216-249): it first calls
`calculate_drift_score`, so for any pair of documents that are not equal the
`AttributeError` from `get_modified_keys` propagates and the bounds loop
below is never reached. -/
def calculate_bounded_drift (original modified : JVal)
    (bounds : List (String × ℚ × ℚ) := []) : Except PyErr BoundedDriftResult := do
  let drift_score ← calculate_drift_score original modified
  let violations :=
    if bounds.isEmpty then []
    else
      (get_numeric_differences original modified).foldr
        (fun (d : String × JVal × JVal) acc =>
          match bounds.find? (fun b => b.1 = d.1) with
          | some (_, min_val, max_val) =>
            if numProj d.2.2 < min_val || numProj d.2.2 > max_val then
              (d.1, d.2.2, min_val, max_val) :: acc
            else acc
          | none => acc)
        []
  .ok { drift_score := drift_score
        bound_violations := violations
        is_valid := violations.isEmpty }

/-!
Timeline Log — `src/backend/app/services/timeline_store.py`.

The store keeps one JSON object per line of `timeline.jsonl`.  The file is
modelled as the list of its lines, each line being either the JSON value it
holds (`LogLine.json` — what `json.dumps` wrote and `json.loads` returns),
a `malformed` line (`json.loads` raises `JSONDecodeError`), or a `blank`
line (skipped by the `line.strip()` guard).  `json.dumps`/`json.loads` are
library code outside this repository; this value-level line model is their
spec (§6 "Persisted Timeline Log format").  The Python constructor leaves
field types unchecked, so the entry fields stay untyped `JVal`s here. -/

/-- A `TimelineEntry` after construction (timeline_store.py lines 14-31):
by then `self.timestamp` is already `timestamp or datetime.now().isoformat()`. -/
structure TimelineEntry where
  run_id : JVal
  seed : JVal
  scene_snapshot : JVal
  patch_summary : JVal
  output_urls : JVal
  timestamp : JVal

/-- One line of the persisted log. -/
inductive LogLine where
  | json (v : JVal)
  | malformed
  | blank

/-- Embeds `TimelineEntry.to_dict` (lines 33-41), field order as written. -/
def to_dict (e : TimelineEntry) : JVal :=
  .obj [("run_id", e.run_id), ("timestamp", e.timestamp), ("seed", e.seed),
        ("scene_snapshot", e.scene_snapshot), ("patch_summary", e.patch_summary),
        ("output_urls", e.output_urls)]

/-- Embeds `TimelineStore.add_entry` (lines 52-60): append one JSON line. -/
def add_entry (file : List LogLine) (entry : TimelineEntry) : List LogLine :=
  file ++ [.json (to_dict entry)]

/-- Python `data[k]`: `KeyError` when the key is missing (the read loop
catches only `json.JSONDecodeError`, so a `KeyError` would propagate). -/
def pyItem (data : JVal) (k : String) : Except PyErr JVal :=
  match data with
  | .obj f =>
    match lookupF f k with
    | some v => .ok v
    | none => .error (.keyError k)
  | _ => .error (.keyError k)

/-- The entry rebuilt from one parsed line (timeline_store.py lines 78-86),
including the constructor's `timestamp or datetime.now().isoformat()` —
`now` stands for the clock reading. -/
def readEntry (now : String) (data : JVal) : Except PyErr TimelineEntry := do
  let run_id ← pyItem data "run_id"
  let seed ← pyItem data "seed"
  let scene_snapshot ← pyItem data "scene_snapshot"
  let patch_summary ← pyItem data "patch_summary"
  let output_urls ← pyItem data "output_urls"
  let ts :=
    match data with
    | .obj f => pyGet f "timestamp"
    | _ => .null
  .ok { run_id := run_id, seed := seed, scene_snapshot := scene_snapshot,
        patch_summary := patch_summary, output_urls := output_urls,
        timestamp := if pyTruthy ts then ts else .str now }

/-- The accumulation loop of `get_all_entries` (lines 74-89): blank lines are
skipped by the `strip()` guard, lines that fail `json.loads` are skipped by
the `except JSONDecodeError: continue` handler, and every parsed line is
rebuilt into an entry. -/
def readEntries (now : String) : List LogLine → Except PyErr (List TimelineEntry)
  | [] => .ok []
  | .blank :: tl => readEntries now tl
  | .malformed :: tl => readEntries now tl
  | .json v :: tl => do
    let e ← readEntry now v
    let rest ← readEntries now tl
    .ok (e :: rest)

/-- Embeds `TimelineStore.get_all_entries` (lines 62-92): read every line,
then return the accumulated entries in reverse order (most recent first). -/
def get_all_entries (now : String) (file : List LogLine) : Except PyErr (List TimelineEntry) := do
  let entries ← readEntries now file
  .ok entries.reverse

/-!
Rule-Based Translator — `translate_with_rules` in
`src/backend/app/routers/translate.py` (lines 32-122).

This function manipulates Python dicts through aliases: `current_scene.copy()`
is a *shallow* copy, after which `updated_scene[key]` and `current_scene[key]`
are the same dict object, and `updated_scene[key].update(value)` writes into
that shared object.  To express this faithfully the embedding runs on an
explicit heap: dicts are mutable `HNode.dict` cells holding addresses, while
non-dict values (strings, numbers, booleans, lists — none of which the
function mutates) are stored as immutable `HNode.prim` leaves.
-/

/-- A heap cell: an immutable non-dict value, or a mutable dict mapping keys
to cell addresses. -/
inductive HNode where
  | prim (v : JVal)
  | dict (entries : List (String × Nat))

/-- Heap: allocation counter plus cells. -/
structure Heap where
  next : Nat
  cells : List (Nat × HNode)

/-- Upsert a cell by address. -/
def upsertCell : List (Nat × HNode) → Nat → HNode → List (Nat × HNode)
  | [], a, n => [(a, n)]
  | (b, m) :: tl, a, n => if b = a then (b, n) :: tl else (b, m) :: upsertCell tl a n

/-- Upsert in a key-to-address association (Python `d[k] = v` on the entry
list of a dict cell). -/
def upsertA : List (String × Nat) → String → Nat → List (String × Nat)
  | [], key, a => [(key, a)]
  | (k, b) :: tl, key, a => if k = key then (k, a) :: tl else (k, b) :: upsertA tl key a

/-- Lookup in a key-to-address association. -/
def lookupA : List (String × Nat) → String → Option Nat
  | [], _ => none
  | (k, a) :: tl, key => if k = key then some a else lookupA tl key

def hget (h : Heap) (a : Nat) : Option HNode :=
  (h.cells.find? (fun c => c.1 == a)).map (fun c => c.2)

def hset (h : Heap) (a : Nat) (n : HNode) : Heap :=
  ⟨h.next, upsertCell h.cells a n⟩

def halloc (h : Heap) (n : HNode) : Nat × Heap :=
  (h.next, ⟨h.next + 1, h.cells ++ [(h.next, n)]⟩)

/-- Entry list of the dict cell at an address (empty for non-dicts). -/
def dictEntries (h : Heap) (a : Nat) : List (String × Nat) :=
  match hget h a with
  | some (.dict es) => es
  | _ => []

def dictLookup (h : Heap) (a : Nat) (k : String) : Option Nat :=
  lookupA (dictEntries h a) k

/-- `d[k] = <address>` on the dict cell at `a`. -/
def dictSetAddr (h : Heap) (a : Nat) (k : String) (v : Nat) : Heap :=
  match hget h a with
  | some (.dict es) => hset h a (.dict (upsertA es k v))
  | _ => h

/-- Python `d[k] = d.get(k, {})`: keep the existing member, or allocate a
fresh empty dict and bind it. Returns the member's address. -/
def dgetOr (h : Heap) (a : Nat) (k : String) : Nat × Heap :=
  match dictLookup h a k with
  | some x => (x, h)
  | none =>
    let (d, h1) := halloc h (.dict [])
    (d, dictSetAddr h1 a k d)

/-- Python `d[k] = v` for a scalar `v`: allocate the value, bind the key. -/
def dsetPrim (h : Heap) (a : Nat) (k : String) (v : JVal) : Heap :=
  let (p, h1) := halloc h (.prim v)
  dictSetAddr h1 a k p

mutual
/-- Store a value into the heap, dicts becoming mutable cells. -/
def storeJ : JVal → Heap → Nat × Heap
  | .obj fs, h =>
    let (es, h1) := storeFields fs h
    halloc h1 (.dict es)
  | v, h => halloc h (.prim v)

def storeFields : Fields → Heap → List (String × Nat) × Heap
  | [], h => ([], h)
  | (k, v) :: tl, h =>
    let (a, h1) := storeJ v h
    let (rest, h2) := storeFields tl h1
    ((k, a) :: rest, h2)
end

/-- Read back the value reachable from an address (`fuel` bounds the pointer
depth; the heaps built here are acyclic, so any fuel beyond the cell count is
enough). -/
def derefN : Nat → Heap → Nat → Option JVal
  | 0, _, _ => none
  | fuel + 1, h, a =>
    match hget h a with
    | some (.prim v) => some v
    | some (.dict es) =>
      (es.mapM (fun p => (derefN fuel h p.2).map (fun v => (p.1, v)))).map .obj
    | none => none

/-- The document value at an address, with ample fuel. -/
def heapVal (h : Heap) (a : Nat) : Option JVal :=
  derefN (h.next + 1) h a

/-- `needle` is a prefix of `hay` (character lists). -/
def hasPfx : List Char → List Char → Bool
  | [], _ => true
  | _ :: _, [] => false
  | a :: as, b :: bs => a == b && hasPfx as bs

/-- `needle` occurs contiguously in `hay` (character lists). -/
def hasSubL (needle : List Char) : List Char → Bool
  | [] => needle.isEmpty
  | b :: bs => hasPfx needle (b :: bs) || hasSubL needle bs

/-- Python `needle in hay` on strings. -/
def strIn (needle hay : String) : Bool :=
  hasSubL needle.toList hay.toList

/-- Python `s.lower()` (core `String.toLower` is defined by well-founded
byte-position recursion, so the character-list form is used instead). -/
def strLower (s : String) : String :=
  ⟨s.data.map Char.toLower⟩

/-- Python `any(word in hay for word in words)`. -/
def anyWord (words : List String) (hay : String) : Bool :=
  words.any (fun w => strIn w hay)

/-- `updates[k1] = updates.get(k1, {}); updates[k1][k2] = v`. -/
def setIn2 (h : Heap) (root : Nat) (k1 k2 : String) (v : JVal) : Heap :=
  let (a1, h1) := dgetOr h root k1
  dsetPrim h1 a1 k2 v

/-- `updates[k1] = updates.get(k1, {}); updates[k1][k2] = updates[k1].get(k2, {});
updates[k1][k2][k3] = v`. -/
def setIn3 (h : Heap) (root : Nat) (k1 k2 k3 : String) (v : JVal) : Heap :=
  let (a1, h1) := dgetOr h root k1
  let (a2, h2) := dgetOr h1 a1 k2
  dsetPrim h2 a2 k3 v

/-- One iteration of the deep-merge loop (translate.py lines 100-104):
`updated_scene[key].update(value)` when both sides hold dicts — an in-place
write into a cell the shallow copy *shares with the caller's scene* — and a
rebinding `updated_scene[key] = value` otherwise. -/
def mergeStep (usAddr : Nat) (h : Heap) (kv : String × Nat) : Heap :=
  match hget h kv.2 with
  | some (.dict ventries) =>
    match dictLookup h usAddr kv.1 with
    | some taddr =>
      match hget h taddr with
      | some (.dict tentries) =>
        hset h taddr (.dict (ventries.foldl (fun es p => upsertA es p.1 p.2) tentries))
      | _ => dictSetAddr h usAddr kv.1 kv.2
    | none => dictSetAddr h usAddr kv.1 kv.2
  | _ => dictSetAddr h usAddr kv.1 kv.2

/-- What `translate_with_rules` returns (its result dict; `updated_scene` is
the address of the returned scene object). -/
structure TransResult where
  patch : List Op
  updated_scene : Nat
  diff_summary : String
  confidence : ℚ
  explanation : String

/-- Embeds `translate_with_rules` (translate.py lines 32-122), rule for rule
in source order.  `current_scene.copy()` is the shallow copy (a fresh
top-level dict sharing every nested address); the keyword groups fire on the
lower-cased instruction; the collected updates are merged by the loop above;
the patch is derived by `jsonpatch.from_diff` between `current_scene` and
`updated_scene` — both read *after* the merge loop has run. -/
def translate_with_rules (instruction : String) (h0 : Heap) (sceneAddr : Nat) :
    Heap × TransResult :=
  let il := strLower instruction
  let (usAddr, h1) := halloc h0 (.dict (dictEntries h0 sceneAddr))
  let (upAddr, h2) := halloc h1 (.dict [])
  let h3 :=
    if anyWord ["zoom", "closer", "tighter"] il then
      setIn2 h2 upAddr "camera" "lens_mm" (.num 100)
    else if anyWord ["wider", "pull back", "zoom out"] il then
      setIn2 h2 upAddr "camera" "lens_mm" (.num 35)
    else if anyWord ["angle", "tilt", "down"] il then
      setIn2 h2 upAddr "camera" "tilt" (.num (-15))
    else h2
  let h4 :=
    if anyWord ["brighten", "increase light", "more light"] il then
      setIn3 h3 upAddr "lighting" "key" "intensity" (.num (mkRat 95 100))
    else if anyWord ["darken", "decrease light", "less light"] il then
      setIn3 h3 upAddr "lighting" "key" "intensity" (.num (mkRat 65 100))
    else h3
  let h5 :=
    if anyWord ["warm", "warmer"] il then
      setIn2 h4 upAddr "color" "temperature" (.num 75)
    else if anyWord ["cool", "cooler", "cold"] il then
      setIn2 h4 upAddr "color" "temperature" (.num 30)
    else h4
  let h6 :=
    if anyWord ["saturate", "vivid", "vibrant", "saturated"] il then
      setIn2 h5 upAddr "color" "saturation" (.num (mkRat 95 100))
    else if anyWord ["desaturate", "muted", "less color"] il then
      setIn2 h5 upAddr "color" "saturation" (.num (mkRat 4 10))
    else h5
  let h7 :=
    if anyWord ["contrast", "punchy", "crisp"] il then
      setIn2 h6 upAddr "color" "contrast" (.num (mkRat 85 100))
    else h6
  let h8 :=
    if anyWord ["blur background", "shallow focus", "separation"] il then
      setIn2 h7 upAddr "camera" "depth_of_field" (.num (mkRat 9 10))
    else if anyWord ["sharp", "deep focus"] il then
      setIn2 h7 upAddr "camera" "depth_of_field" (.num (mkRat 2 10))
    else h7
  let h9 :=
    if strIn "lock" il && strIn "composition" il then
      setIn2 h8 upAddr "constraints" "lock_composition" (.bool true)
    else h8
  let h10 :=
    if strIn "lock" il && strIn "subject" il then
      setIn2 h9 upAddr "constraints" "lock_subject_identity" (.bool true)
    else h9
  let hM := (dictEntries h10 upAddr).foldl (mergeStep usAddr) h10
  let patch := diffOps ((heapVal hM sceneAddr).getD .null) ((heapVal hM usAddr).getD .null)
  let changed_keys := (dictEntries hM upAddr).map (fun p => p.1)
  let diff_summary :=
    if changed_keys.isEmpty then "No changes"
    else "Modified: " ++ String.intercalate ", " changed_keys
  (hM,
   { patch := patch
     updated_scene := usAddr
     diff_summary := diff_summary
     confidence := if (dictEntries hM upAddr).isEmpty then mkRat 1 2 else mkRat 9 10
     explanation := "Rule-based translation: " ++ diff_summary })

/-!
Concrete example documents, runs, and auxiliary definitions used by the
theorems below.
-/


/-- Example scenes for the drift-score evaluations. -/
def dsOrig : JVal := .obj [("a", .num 1)]

def dsMod : JVal := .obj [("a", .num 2)]

/-- Original scene for the constraint-violation evaluations: the subject
lock is set via the flag the data model and the rule translator use
(`lock_subject_identity`, translate.py line 97). -/
def cvOrigSubject : JVal :=
  .obj [("constraints", .obj [("lock_subject_identity", .bool true)]),
        ("subject", .obj [("id", .str "cat")])]

def cvModSubject : JVal := .obj [("subject", .obj [("id", .str "dog")])]

def cvOrigComp : JVal :=
  .obj [("constraints", .obj [("lock_composition", .bool true)]),
        ("camera", .obj [("fov", .num 40)])]

/-- Bounds and scenes for the bounded-drift evaluation (the spec's own test
vector: lens modified from 50 to 400 against the bound `(14, 300)`). -/
def bdOrig : JVal := .obj [("camera", .obj [("lens_mm", .num 50)])]

def bdMod : JVal := .obj [("camera", .obj [("lens_mm", .num 400)])]

/-- The constant message raised for an operation that lacks a required
field: the Python f-string interpolates only the fixed `required_fields`
set, nothing from the offending operation. -/
def missingFieldsMsg : String := "Patch operation missing required fields: op, path"

/-- The scene used to exhibit the translator's in-place mutation. -/
def mutScene : JVal := .obj [("camera", .obj [("lens_mm", .num 50)])]

/-- The heap and caller address after storing `mutScene` in an empty heap. -/
def mutStore : Nat × Heap := storeJ mutScene ⟨0, []⟩

/-- The heap after running `translate_with_rules "zoom in"` on that scene. -/
def mutRun : Heap × TransResult :=
  translate_with_rules "zoom in" mutStore.2 mutStore.1

/-- Scene pair for C6, exactly the spec's test vector
(`camera.lens_mm = 50`, `lighting.key.intensity = 0.85`). -/
def c6Scene : JVal :=
  .obj [("camera", .obj [("lens_mm", .num 50)]),
        ("lighting", .obj [("key", .obj [("intensity", .num (mkRat 85 100))])])]

/-- The same shapes with other current values, to exhibit that the matched
rules force the same literal targets regardless of the starting values. -/
def c6SceneB : JVal :=
  .obj [("camera", .obj [("lens_mm", .num 77)]),
        ("lighting", .obj [("key", .obj [("intensity", .num (mkRat 1 4))])])]

def c6Run : Heap × TransResult :=
  let st := storeJ c6Scene ⟨0, []⟩
  translate_with_rules "zoom in and brighten the key light" st.2 st.1

def c6RunB : Heap × TransResult :=
  let st := storeJ c6SceneB ⟨0, []⟩
  translate_with_rules "zoom in and brighten the key light" st.2 st.1

/-- Scene pair flipping a boolean constraint lock, with a bound declared on
the flipped path. -/
def boolFlipOrig : JVal := .obj [("constraints", .obj [("lock_palette", .bool false)])]

def boolFlipMod : JVal := .obj [("constraints", .obj [("lock_palette", .bool true)])]

/-- The log lines written for a list of entries (one `json.dumps` line per
entry, in order). -/
def entryLines (es : List TimelineEntry) : List LogLine :=
  es.map (fun e => .json (to_dict e))

/-- Concrete entries for the C9 witness. -/
def witEntryA : TimelineEntry :=
  ⟨.str "run-a", .num 7, .obj [("camera", .obj [("lens_mm", .num 50)])],
   .str "Modified: camera", .arr [.str "out/a.png"], .str "2024-01-01T00:00:00"⟩

def witEntryB : TimelineEntry :=
  ⟨.str "run-b", .num 8, .obj [], .str "No changes", .arr [],
   .str "2024-01-02T00:00:00"⟩

/-- An operation that satisfies every structural check of
`validate_patch_operations`: a dict whose `op` is one of the six verbs and
whose `path` is a string. -/
def opWellFormed : JVal → Bool
  | .obj f =>
    (match lookupF f "op" with
     | some (.str s) => valid_ops.contains s
     | _ => false)
    && (match lookupF f "path" with
        | some (.str _) => true
        | _ => false)
  | _ => false

/-- The shapes of operation `generate_patch` can emit: `replace` anywhere,
`add`/`remove` only at non-root paths. -/
def goodOp : Op → Bool
  | .add p _ => !p.isEmpty
  | .remove p => !p.isEmpty
  | .replace _ _ => true
  | _ => false

/-- Resolve a dotted path by descending only through dicts (the shape of
access `compare_recursively` performs). -/
def lookPath : JVal → List String → Option JVal
  | v, [] => some v
  | .obj f, k :: tl =>
    match lookupF f k with
    | some v => lookPath v tl
    | none => none
  | _, _ :: _ => none

/-- The slash-path extension step used by `numDiffFields`. -/
def extendPath (acc k : String) : String :=
  if acc = "" then k else acc ++ "/" ++ k

/-- The slash path `numDiffFields` builds along a key list. -/
def numPath (acc : String) : List String → String
  | [] => acc
  | k :: tl => numPath (extendPath acc k) tl

end FormatLab

/-!
Theorems.  Each claim of the specification is settled by one theorem below;
helper lemmas come first.
-/

namespace FormatLab

/-- The drift score of two documents that are not deep-equal is never
produced: `get_modified_keys` raises `AttributeError` on every call (its
`modified` parameter is shadowed by an empty set whose `.keys()` is then
taken), and `calculate_drift_score` reaches it whenever the equality
short-circuit fails. -/
theorem calculate_drift_score_raises (o m : JVal) (h : pyEq o m = false) :
    calculate_drift_score o m
      = .error (.attributeError "'set' object has no attribute 'keys'") := by
  unfold calculate_drift_score
  rw [h]
  rfl

/-- C1: the claim states that `calculate_drift_score` returns a float in
`[0, 1]` for every pair of scene documents — `0.0` on deep-equal inputs and
otherwise `|modified key paths| / |union of key paths|` clamped to `1.0`.
The code contradicts it: `get_modified_keys` (drift.py line 54) shadows its
`modified` parameter with an empty `set()` and line 57 then calls `.keys()`
on that set, so every non-equal pair — here `{"a": 1}` vs `{"a": 2}`, for
which the claim promises the score `1.0` — raises `AttributeError` instead
of returning a number.  Only the deep-equal short-circuit ever returns. -/
theorem c1_driftScore_crashes_on_any_change :
    calculate_drift_score dsOrig dsMod
      = .error (.attributeError "'set' object has no attribute 'keys'")
    ∧ calculate_drift_score dsOrig dsOrig = .ok 0 :=
  ⟨calculate_drift_score_raises _ _ (by decide), rfl⟩

/-- C5: the claim states that `check_constraint_violations` emits a
violation when the subject-identity lock — the `lock_subject_identity` flag
set by the rule translator's "lock subject" rule and used by the data model —
is true and `subject` differs.  The code reads the key `"lock_subject"`
instead (drift.py line 195), a key nothing in the repository ever writes, so
a scene locked through `lock_subject_identity` yields no violation when its
subject changes (first conjunct).  The composition- and palette-lock clauses
of the claim do hold: with `lock_composition` set, a changed `camera`
section is flagged (second conjunct) and an identical one is not (third);
the fourth conjunct shows the subject check firing only for the key
`"lock_subject"`.  The function only reports: it returns a list of messages
and leaves both scenes untouched. -/
theorem c5_subject_lock_reads_wrong_key :
    check_constraint_violations cvOrigSubject cvModSubject = .ok []
    ∧ check_constraint_violations cvOrigComp (.obj [("camera", .obj [("fov", .num 50)])])
        = .ok ["Composition was locked but camera settings changed"]
    ∧ check_constraint_violations cvOrigComp (.obj [("camera", .obj [("fov", .num 40)])])
        = .ok []
    ∧ check_constraint_violations
        (.obj [("constraints", .obj [("lock_subject", .bool true)]),
               ("subject", .obj [("id", .str "cat")])]) cvModSubject
        = .ok ["Subject identity was locked but was modified"] :=
  ⟨rfl, rfl, rfl, rfl⟩

/-- C7: the claim states that `calculate_bounded_drift` flags each numeric
difference whose declared bound is violated and that, with the bound
`{"camera/lens_mm": (14, 300)}` and a modification setting `lens_mm = 400`,
it reports exactly one bound violation and `is_valid = false`.  The code
never gets there: its first statement calls `calculate_drift_score`, which
raises `AttributeError` for every non-equal pair (see C1), so the call on
the spec's own test vector fails instead of reporting a violation. -/
theorem c7_boundedDrift_crashes_before_bounds :
    calculate_bounded_drift bdOrig bdMod [("camera/lens_mm", 14, 300)]
      = .error (.attributeError "'set' object has no attribute 'keys'") := rfl

/-- C8 counterexample: the claim states that a patch containing an operation
missing `path` fails validation with an error naming that operation.  Two
different offending operations — `{"op": "add", "value": 1}` and
`{"op": "copy"}` — produce the identical fixed message, and that message
contains neither `"add"` nor `"copy"`, so the error cannot be naming the
operation. -/
theorem c8_error_does_not_name_operation :
    validate_patch_operations [.obj [("op", .str "add"), ("value", .num 1)]]
      = .error (.valueError missingFieldsMsg)
    ∧ validate_patch_operations [.obj [("op", .str "copy")]]
      = .error (.valueError missingFieldsMsg)
    ∧ strIn "add" missingFieldsMsg = false
    ∧ strIn "copy" missingFieldsMsg = false :=
  ⟨rfl, rfl, by decide, by decide⟩

/-- C4: the claim states that no Patch Engine or Translator operation
mutates the caller's SceneGraph in place — in particular that
`translate_with_rules` leaves the scene passed in deep-equal to its value
before the call.  The code violates this: `updated_scene =
current_scene.copy()` (translate.py line 38) is a *shallow* copy, so
`updated_scene["camera"]` is the caller's own `camera` dict, and the merge
loop's `updated_scene[key].update(value)` (line 102) writes `lens_mm = 100`
into it.  After the call the caller's document reads
`{"camera": {"lens_mm": 100}}` — no longer deep-equal to its pre-call value
`{"camera": {"lens_mm": 50}}`.  (The other half of the claim is fine:
`apply_patch` with an empty operation list returns a deep copy, last
conjunct, and `jsonpatch` applies patches to a deep copy as well.) -/
theorem c4_translate_mutates_callers_scene :
    heapVal mutStore.2 mutStore.1 = some mutScene
    ∧ heapVal mutRun.1 mutStore.1
        = some (.obj [("camera", .obj [("lens_mm", .num 100)])])
    ∧ optPyEq (heapVal mutRun.1 mutStore.1) (some mutScene) = false
    ∧ apply_patch mutScene [] = .ok mutScene :=
  ⟨rfl, rfl, by decide, rfl⟩

/-- C6: the rule translator, given `"zoom in and brighten the key light"`
and a scene with `camera.lens_mm = 50` and `lighting.key.intensity = 0.85`,
returns an updated scene with `camera.lens_mm = 100` and
`lighting.key.intensity = 0.95`, the diff summary
`"Modified: camera, lighting"`, and confidence `0.9`.  The last three
conjuncts rerun the translator on the same shapes with different current
values (`lens_mm = 77`, `intensity = 0.25`) and receive the same literal
targets: matched keyword rules force fixed values, not deltas. -/
theorem c6_zoom_and_brighten :
    optPyEq (heapVal c6Run.1 c6Run.2.updated_scene)
        (some (.obj [("camera", .obj [("lens_mm", .num 100)]),
                     ("lighting", .obj [("key", .obj [("intensity", .num (mkRat 95 100))])])]))
      = true
    ∧ c6Run.2.diff_summary = "Modified: camera, lighting"
    ∧ c6Run.2.confidence = mkRat 9 10
    ∧ optPyEq (heapVal c6RunB.1 c6RunB.2.updated_scene)
        (some (.obj [("camera", .obj [("lens_mm", .num 100)]),
                     ("lighting", .obj [("key", .obj [("intensity", .num (mkRat 95 100))])])]))
      = true
    ∧ c6RunB.2.diff_summary = "Modified: camera, lighting"
    ∧ c6RunB.2.confidence = mkRat 9 10 :=
  ⟨by decide, rfl, by decide, by decide, rfl, by decide⟩

/-- C10: the claim states that `get_numeric_differences` treats booleans as
numbers — a boolean leaf flipping is reported with the pair
`(False, True)` (first conjunct: the constraint lock flip is recorded under
its slash path) while `1` vs `True` is unreported because the values compare
equal in Python (second conjunct) — and that consequently boolean paths
participate in `calculate_bounded_drift`'s bounds checking.  The first two
parts hold (`isinstance(True, (int, float))` is true, `1 == True` is true),
but the consequence does not: `calculate_bounded_drift` calls
`calculate_drift_score` before its bounds loop, and that call raises
`AttributeError` for every pair that differs at all (see C1), so the bool
path never reaches the bounds check (third conjunct). -/
theorem c10_bools_are_numeric_but_bounds_never_run :
    get_numeric_differences boolFlipOrig boolFlipMod
      = [("constraints/lock_palette", .bool false, .bool true)]
    ∧ get_numeric_differences (.obj [("a", .num 1)]) (.obj [("a", .bool true)]) = []
    ∧ calculate_bounded_drift boolFlipOrig boolFlipMod [("constraints/lock_palette", 0, 1)]
        = .error (.attributeError "'set' object has no attribute 'keys'") :=
  ⟨rfl, rfl, rfl⟩

theorem entryLines_cons (e : TimelineEntry) (es : List TimelineEntry) :
    entryLines (e :: es) = .json (to_dict e) :: entryLines es := rfl

/-- Reading back the dict written by `to_dict` reconstructs the entry, as
long as its timestamp is truthy (a non-empty string; otherwise the
constructor's `timestamp or datetime.now().isoformat()` would replace it
with the clock reading). -/
theorem readEntry_to_dict (now : String) (e : TimelineEntry)
    (h : pyTruthy e.timestamp = true) :
    readEntry now (to_dict e) = .ok e := by
  simp [readEntry, to_dict, pyItem, lookupF, pyGet, h]
  rfl

/-- Reading a block of entry lines prepends those entries to whatever the
rest of the file yields. -/
theorem readEntries_append_entries (now : String) :
    ∀ (es : List TimelineEntry) (rest : List LogLine),
      (∀ e ∈ es, pyTruthy e.timestamp = true) →
      readEntries now (entryLines es ++ rest)
        = (readEntries now rest).map (fun l => es ++ l) := by
  intro es
  induction es with
  | nil =>
    intro rest _
    simp only [entryLines, List.map_nil, List.nil_append]
    cases hrest : readEntries now rest <;> rfl
  | cons e es ih =>
    intro rest hall
    have he : pyTruthy e.timestamp = true := hall e (by simp)
    have htl : ∀ x ∈ es, pyTruthy x.timestamp = true := fun x hx => hall x (by simp [hx])
    have step : readEntries now (LogLine.json (to_dict e) :: (entryLines es ++ rest))
        = (readEntry now (to_dict e)).bind
            (fun x => (readEntries now (entryLines es ++ rest)).bind
              (fun r => .ok (x :: r))) := rfl
    rw [entryLines_cons, List.cons_append, step, readEntry_to_dict now e he, ih rest htl]
    cases hrest : readEntries now rest <;> rfl

/-- Reading exactly the lines of a block of entries yields those entries. -/
theorem readEntries_entryLines (now : String) (l : List TimelineEntry)
    (hl : ∀ e ∈ l, pyTruthy e.timestamp = true) :
    readEntries now (entryLines l) = .ok l := by
  have h := readEntries_append_entries now l [] hl
  rw [List.append_nil] at h
  rw [h]
  show Except.ok (l ++ []) = Except.ok l
  rw [List.append_nil]

/-- C9: the Timeline Log returns, after appending N entries, exactly those N
entries in reverse insertion order, and a log whose lines contain one
malformed line among valid entry lines yields all the valid entries with the
malformed line skipped.  `now` is the clock reading used by the entry
constructor's `timestamp or datetime.now().isoformat()` default; the
hypotheses say every entry carries a truthy (non-empty) timestamp, which
every entry constructed by the store does. -/
theorem c9_timeline_roundtrip_and_tolerance (now : String)
    (es es1 es2 : List TimelineEntry)
    (h : ∀ e ∈ es, pyTruthy e.timestamp = true)
    (h1 : ∀ e ∈ es1, pyTruthy e.timestamp = true)
    (h2 : ∀ e ∈ es2, pyTruthy e.timestamp = true) :
    get_all_entries now (es.foldl add_entry []) = .ok es.reverse
    ∧ get_all_entries now (entryLines es1 ++ .malformed :: entryLines es2)
        = .ok (es1 ++ es2).reverse := by
  constructor
  · have hfold : ∀ (l : List TimelineEntry) (file : List LogLine),
        l.foldl add_entry file = file ++ entryLines l := by
      intro l
      induction l with
      | nil => intro file; simp [entryLines]
      | cons e tl ih =>
        intro file
        rw [List.foldl_cons, ih]
        simp [add_entry, entryLines]
    rw [hfold es [], List.nil_append, get_all_entries, readEntries_entryLines now es h]
    rfl
  · have hmal : readEntries now (LogLine.malformed :: entryLines es2) = .ok es2 := by
      rw [show readEntries now (LogLine.malformed :: entryLines es2)
            = readEntries now (entryLines es2) from rfl,
          readEntries_entryLines now es2 h2]
    rw [get_all_entries, readEntries_append_entries now es1 _ h1, hmal]
    rfl

/-- C9 witness: the theorem instantiated on two concrete entries — appending
both then reading yields them most-recent-first, and a malformed line
between the two is skipped. -/
theorem c9_timeline_witness :
    get_all_entries "2024-02-02T00:00:00" ([witEntryA, witEntryB].foldl add_entry [])
      = .ok [witEntryB, witEntryA]
    ∧ get_all_entries "2024-02-02T00:00:00"
        (entryLines [witEntryA] ++ .malformed :: entryLines [witEntryB])
      = .ok [witEntryB, witEntryA] :=
  c9_timeline_roundtrip_and_tolerance "2024-02-02T00:00:00"
    [witEntryA, witEntryB] [witEntryA] [witEntryB]
    (by decide) (by decide) (by decide)

/-- A structurally well-formed operation passes the per-operation checks. -/
theorem checkOp_ok_of_wellFormed (op : JVal) (h : opWellFormed op = true) :
    checkOp op = .ok () := by
  cases op with
  | obj f =>
    rw [opWellFormed, Bool.and_eq_true] at h
    obtain ⟨h1, h2⟩ := h
    cases hlop : lookupF f "op" with
    | none => rw [hlop] at h1; simp at h1
    | some v =>
      cases v <;> rw [hlop] at h1 <;> try simp at h1
      case str sOp =>
        cases hlpath : lookupF f "path" with
        | none => rw [hlpath] at h2; simp at h2
        | some w =>
          cases w <;> rw [hlpath] at h2 <;> try simp at h2
          case str sPath =>
            have hmem : sOp ∈ valid_ops := by
              simpa using h1
            simp [checkOp, hlop, hlpath, hmem]
  | num q => simp [opWellFormed] at h
  | bool b => simp [opWellFormed] at h
  | str s => simp [opWellFormed] at h
  | null => simp [opWellFormed] at h
  | arr a => simp [opWellFormed] at h

/-- A dict operation with no `path` member fails the required-fields check
with the constant missing-fields message. -/
theorem checkOp_missing_path (f : Fields) (h : lookupF f "path" = none) :
    checkOp (.obj f) = .error (.valueError missingFieldsMsg) := by
  simp [checkOp, h, missingFieldsMsg]

/-- C8 amended: `validate_patch_operations` accepts every patch whose
operations are each a mapping containing an `op` drawn from the six verbs
and a string `path`, returning `True`; for any patch containing an
operation missing `path` it fails with a validation error — whose message
(see the counterexample) names the missing required fields rather than the
offending operation; it performs no semantic pointer-resolution checks
(none of its branches consult a document). -/
theorem c8_validate_accepts_wellformed_rejects_missing_path :
    (∀ ops : List JVal, ops.all opWellFormed = true →
      validate_patch_operations ops = .ok true)
    ∧ (∀ (ops : List JVal) (f : Fields), .obj f ∈ ops → lookupF f "path" = none →
      ∃ e, validate_patch_operations ops = .error e) := by
  constructor
  · intro ops
    induction ops with
    | nil => intro _; rfl
    | cons op tl ih =>
      intro hall
      rw [List.all_cons, Bool.and_eq_true] at hall
      rw [validate_patch_operations, checkOp_ok_of_wellFormed op hall.1, ih hall.2]
      rfl
  · intro ops
    induction ops with
    | nil => intro f h; simp at h
    | cons op tl ih =>
      intro f hmem hpath
      rcases List.mem_cons.mp hmem with heq | hmem'
      · refine ⟨.valueError missingFieldsMsg, ?_⟩
        rw [validate_patch_operations, ← heq, checkOp_missing_path f hpath]
        rfl
      · cases hc : checkOp op with
        | error e =>
          refine ⟨e, ?_⟩
          rw [validate_patch_operations, hc]
          rfl
        | ok u =>
          obtain ⟨e, he⟩ := ih f hmem' hpath
          refine ⟨e, ?_⟩
          rw [validate_patch_operations, hc, he]
          rfl

/-- C8 witness: the amended theorem applied to a one-operation well-formed
patch (accepted) and a one-operation patch missing `path` (rejected). -/
theorem c8_validate_witness :
    validate_patch_operations [.obj [("op", .str "add"), ("path", .str "/camera/lens_mm"), ("value", .num 100)]] = .ok true
    ∧ ∃ e, validate_patch_operations [.obj [("op", .str "add"), ("value", .num 1)]] = .error e :=
  ⟨c8_validate_accepts_wellformed_rejects_missing_path.1 _ (by decide),
   c8_validate_accepts_wellformed_rejects_missing_path.2 _
     [("op", .str "add"), ("value", .num 1)] (by simp) rfl⟩

/-- Sequential application either succeeds as a whole or stops at a first
failing operation, every earlier operation having succeeded, and yields an
error. -/
theorem applyOps_cases : ∀ (ops : List Op) (base : JVal),
    (∃ d, applyOps base ops = .ok d)
    ∨ (∃ i, ∃ hi : i < ops.length, ∃ d e,
        applyOps base (ops.take i) = .ok d
        ∧ applyOp d (ops.get ⟨i, hi⟩) = .error e
        ∧ ∃ e2, applyOps base ops = .error e2) := by
  intro ops
  induction ops with
  | nil => intro base; exact .inl ⟨base, rfl⟩
  | cons op tl ih =>
    intro base
    cases hop : applyOp base op with
    | error e =>
      right
      refine ⟨0, by simp, base, e, rfl, hop, e, ?_⟩
      simp only [applyOps, hop]
    | ok d1 =>
      have hstep : applyOps base (op :: tl) = applyOps d1 tl := by
        simp only [applyOps, hop]
      rcases ih d1 with ⟨d, hd⟩ | ⟨i, hi, d, e, htake, hfail, e2, herr⟩
      · exact .inl ⟨d, by rw [hstep]; exact hd⟩
      · right
        refine ⟨i + 1, by simpa using hi, d, e, ?_, ?_, e2, ?_⟩
        · rw [List.take_succ_cons]
          simp only [applyOps, hop]
          exact htake
        · exact hfail
        · rw [hstep]; exact herr

/-- C3: `apply_patch` is atomic and raises on any invalid step.  For every
base document and operation sequence, either every operation applies in
order and the fully patched document is returned, or there is a first
invalid operation — one whose application to the document produced by the
preceding operations fails (unresolvable pointer, failed `test`) — and the
call returns an error carrying no document at all: no partially patched
document is ever surfaced.  (On the Python side the caller's own document
is also left untouched: `jsonpatch.JsonPatch.apply` works on a deep copy —
its default is `in_place=False` — and the error path re-raises as
`ValueError` without returning anything.) -/
theorem c3_apply_patch_atomic (base : JVal) (ops : List Op) :
    (∃ d, apply_patch base ops = .ok d ∧ applyOps base ops = .ok d)
    ∨ (∃ i, ∃ hi : i < ops.length, ∃ d e,
        applyOps base (ops.take i) = .ok d
        ∧ applyOp d (ops.get ⟨i, hi⟩) = .error e
        ∧ ∃ e2, apply_patch base ops = .error e2) := by
  have hap : ∀ (b : JVal) (o : Op) (t : List Op),
      apply_patch b (o :: t)
        = match applyOps b (o :: t) with
          | .ok d => .ok d
          | .error _ => .error (.valueError "Failed to apply patch") :=
    fun _ _ _ => rfl
  rcases applyOps_cases ops base with ⟨d, hd⟩ | ⟨i, hi, d, e, htake, hfail, e2, herr⟩
  · left
    cases ops with
    | nil => exact ⟨base, rfl, rfl⟩
    | cons op tl =>
      refine ⟨d, ?_, hd⟩
      rw [hap base op tl, hd]
  · right
    refine ⟨i, hi, d, e, htake, hfail, .valueError "Failed to apply patch", ?_⟩
    cases ops with
    | nil => exact absurd hi (by simp)
    | cons op tl =>
      rw [hap base op tl, herr]

/-!
Association-list lemmas used by the diff/apply round-trip proof (C2).
-/

theorem contains_eq_mem (l : List String) (a : String) :
    l.contains a = true ↔ a ∈ l := by
  induction l with
  | nil => simp
  | cons b tl ih =>
    rw [List.contains_cons, Bool.or_eq_true, ih]
    constructor
    · rintro (h1 | h2)
      · exact List.mem_cons.mpr (.inl (by simpa using h1))
      · exact List.mem_cons.mpr (.inr h2)
    · intro h
      rcases List.mem_cons.mp h with h1 | h2
      · exact .inl (by simp [h1])
      · exact .inr h2

theorem strNodup_cons_iff {a : String} {l : List String} :
    strNodup (a :: l) = true ↔ a ∉ l ∧ strNodup l = true := by
  rw [strNodup, Bool.and_eq_true, Bool.not_eq_true']
  constructor
  · rintro ⟨h1, h2⟩
    refine ⟨?_, h2⟩
    intro hc
    rw [(contains_eq_mem l a).mpr hc] at h1
    cases h1
  · rintro ⟨h1, h2⟩
    refine ⟨?_, h2⟩
    rw [Bool.eq_false_iff]
    intro hc
    exact h1 ((contains_eq_mem l a).mp hc)

theorem lookupF_mem : ∀ {f : Fields} {k : String} {v : JVal},
    lookupF f k = some v → (k, v) ∈ f := by
  intro f
  induction f with
  | nil => intro k v h; simp [lookupF] at h
  | cons p tl ih =>
    intro k v h
    obtain ⟨pk, pv⟩ := p
    by_cases hk : pk = k
    · subst hk
      have h2 : some pv = some v := by
        rw [← h]
        simp [lookupF]
      cases h2
      exact List.mem_cons_self _ _
    · simp only [lookupF, if_neg hk] at h
      exact List.mem_cons_of_mem _ (ih h)

theorem mem_keysF : ∀ {f : Fields} {k : String},
    k ∈ keysF f ↔ ∃ v, (k, v) ∈ f := by
  intro f
  induction f with
  | nil => intro k; simp [keysF]
  | cons p tl ih =>
    intro k
    obtain ⟨pk, pv⟩ := p
    rw [show keysF ((pk, pv) :: tl) = pk :: keysF tl from rfl]
    constructor
    · intro h
      rcases List.mem_cons.mp h with heq | hm
      · exact ⟨pv, by simp [heq]⟩
      · rcases ih.mp hm with ⟨v, hv⟩
        exact ⟨v, List.mem_cons_of_mem _ hv⟩
    · rintro ⟨v, hv⟩
      rcases List.mem_cons.mp hv with heq | hm
      · cases heq
        exact List.mem_cons_self _ _
      · exact List.mem_cons_of_mem _ (ih.mpr ⟨v, hm⟩)

theorem lookupF_isSome_of_mem : ∀ {f : Fields} {k : String} {v : JVal},
    (k, v) ∈ f → (lookupF f k).isSome = true := by
  intro f
  induction f with
  | nil => intro k v h; simp at h
  | cons p tl ih =>
    intro k v h
    obtain ⟨pk, pv⟩ := p
    by_cases hk : pk = k
    · subst hk; simp [lookupF]
    · rcases List.mem_cons.mp h with heq | hm
      · cases heq; simp at hk
      · simp [lookupF, hk, ih hm]

theorem lookupF_eq_none_iff : ∀ {f : Fields} {k : String},
    lookupF f k = none ↔ k ∉ keysF f := by
  intro f k
  constructor
  · intro h hk
    rcases mem_keysF.mp hk with ⟨v, hv⟩
    have h2 := lookupF_isSome_of_mem hv
    rw [h] at h2
    simp at h2
  · intro h
    cases hl : lookupF f k with
    | none => rfl
    | some v => exact absurd (mem_keysF.mpr ⟨v, lookupF_mem hl⟩) h

theorem lookupF_of_mem_nodup : ∀ {f : Fields} {k : String} {v : JVal},
    strNodup (keysF f) = true → (k, v) ∈ f → lookupF f k = some v := by
  intro f
  induction f with
  | nil => intro k v _ h; simp at h
  | cons p tl ih =>
    intro k v hnd h
    obtain ⟨pk, pv⟩ := p
    rw [show keysF ((pk, pv) :: tl) = pk :: keysF tl from rfl, strNodup_cons_iff] at hnd
    rcases List.mem_cons.mp h with heq | hm
    · cases heq; simp [lookupF]
    · have hk : pk ≠ k := by
        intro he
        subst he
        exact hnd.1 (mem_keysF.mpr ⟨v, hm⟩)
      simp [lookupF, hk, ih hnd.2 hm]

theorem lookupF_setF_self : ∀ {f : Fields} {k : String} {v w : JVal},
    lookupF f k = some v → lookupF (setF f k w) k = some w := by
  intro f
  induction f with
  | nil => intro k v w h; simp [lookupF] at h
  | cons p tl ih =>
    intro k v w h
    obtain ⟨pk, pv⟩ := p
    by_cases hk : pk = k
    · subst hk; simp [lookupF, setF]
    · simp only [lookupF, if_neg hk] at h
      simp [setF, lookupF, hk, ih h]

theorem lookupF_setF_ne : ∀ {f : Fields} {k k2 : String} {w : JVal},
    k2 ≠ k → lookupF (setF f k w) k2 = lookupF f k2 := by
  intro f
  induction f with
  | nil => intro k k2 w _; simp [setF]
  | cons p tl ih =>
    intro k k2 w hne
    obtain ⟨pk, pv⟩ := p
    by_cases hk : pk = k
    · subst hk
      have h2 : pk ≠ k2 := fun h => hne h.symm
      simp [setF, lookupF, h2]
    · by_cases h3 : pk = k2
      · subst h3; simp [setF, hk, lookupF]
      · simp [setF, hk, lookupF, h3, ih hne]

theorem setF_self : ∀ {f : Fields} {k : String} {v : JVal},
    lookupF f k = some v → setF f k v = f := by
  intro f
  induction f with
  | nil => intro k v h; simp [lookupF] at h
  | cons p tl ih =>
    intro k v h
    obtain ⟨pk, pv⟩ := p
    by_cases hk : pk = k
    · subst hk
      have h2 : some pv = some v := by
        rw [← h]
        simp [lookupF]
      cases h2
      simp [setF]
    · simp only [lookupF, if_neg hk] at h
      simp [setF, hk, ih h]

theorem setF_setF : ∀ {f : Fields} {k : String} {a b : JVal},
    setF (setF f k a) k b = setF f k b := by
  intro f
  induction f with
  | nil => intro k a b; simp [setF]
  | cons p tl ih =>
    intro k a b
    obtain ⟨pk, pv⟩ := p
    by_cases hk : pk = k
    · subst hk; simp [setF]
    · simp [setF, hk, ih]

theorem keysF_setF : ∀ {f : Fields} {k : String} {w : JVal},
    keysF (setF f k w) = keysF f := by
  intro f
  induction f with
  | nil => intro k w; simp [setF]
  | cons p tl ih =>
    intro k w
    obtain ⟨pk, pv⟩ := p
    by_cases hk : pk = k
    · subst hk; simp [setF, keysF]
    · simp [setF, hk, keysF, ih]

theorem lookupF_eraseF_ne : ∀ {f : Fields} {k k2 : String},
    k2 ≠ k → lookupF (eraseF f k) k2 = lookupF f k2 := by
  intro f
  induction f with
  | nil => intro k k2 _; simp [eraseF]
  | cons p tl ih =>
    intro k k2 hne
    obtain ⟨pk, pv⟩ := p
    by_cases hk : pk = k
    · subst hk
      have h2 : pk ≠ k2 := fun h => hne h.symm
      simp [eraseF, lookupF, h2]
    · by_cases h3 : pk = k2
      · subst h3; simp [eraseF, hk, lookupF]
      · simp [eraseF, hk, lookupF, h3, ih hne]

theorem lookupF_eraseF_self : ∀ {f : Fields} {k : String},
    strNodup (keysF f) = true → lookupF (eraseF f k) k = none := by
  intro f
  induction f with
  | nil => intro k _; simp [eraseF, lookupF]
  | cons p tl ih =>
    intro k hnd
    obtain ⟨pk, pv⟩ := p
    rw [show keysF ((pk, pv) :: tl) = pk :: keysF tl from rfl, strNodup_cons_iff] at hnd
    by_cases hk : pk = k
    · subst hk
      simp only [eraseF, if_pos rfl]
      rw [lookupF_eq_none_iff]
      exact hnd.1
    · simp [eraseF, hk, lookupF, ih hnd.2]

theorem keysF_eraseF_mem : ∀ {f : Fields} {k k2 : String},
    k2 ∈ keysF (eraseF f k) → k2 ∈ keysF f := by
  intro f
  induction f with
  | nil => intro k k2 h; simpa [eraseF] using h
  | cons p tl ih =>
    intro k k2 h
    obtain ⟨pk, pv⟩ := p
    rw [show keysF ((pk, pv) :: tl) = pk :: keysF tl from rfl]
    by_cases hk : pk = k
    · subst hk
      simp only [eraseF, if_pos rfl] at h
      exact List.mem_cons_of_mem _ h
    · simp only [eraseF, if_neg hk] at h
      rw [show keysF ((pk, pv) :: eraseF tl k) = pk :: keysF (eraseF tl k) from rfl] at h
      rcases List.mem_cons.mp h with heq | hm
      · simp [heq]
      · exact List.mem_cons_of_mem _ (ih hm)

theorem strNodup_eraseF : ∀ {f : Fields} {k : String},
    strNodup (keysF f) = true → strNodup (keysF (eraseF f k)) = true := by
  intro f
  induction f with
  | nil => intro k h; exact h
  | cons p tl ih =>
    intro k hnd
    obtain ⟨pk, pv⟩ := p
    rw [show keysF ((pk, pv) :: tl) = pk :: keysF tl from rfl, strNodup_cons_iff] at hnd
    by_cases hk : pk = k
    · subst hk; simpa [eraseF] using hnd.2
    · rw [show eraseF ((pk, pv) :: tl) k = (pk, pv) :: eraseF tl k by simp [eraseF, hk],
          show keysF ((pk, pv) :: eraseF tl k) = pk :: keysF (eraseF tl k) from rfl,
          strNodup_cons_iff]
      exact ⟨fun hc => hnd.1 (keysF_eraseF_mem hc), ih hnd.2⟩

theorem lookupF_upsertF_self : ∀ {f : Fields} {k : String} {w : JVal},
    lookupF (upsertF f k w) k = some w := by
  intro f
  induction f with
  | nil => intro k w; simp [upsertF, lookupF]
  | cons p tl ih =>
    intro k w
    obtain ⟨pk, pv⟩ := p
    by_cases hk : pk = k
    · subst hk; simp [upsertF, lookupF]
    · simp [upsertF, hk, lookupF, ih]

theorem lookupF_upsertF_ne : ∀ {f : Fields} {k k2 : String} {w : JVal},
    k2 ≠ k → lookupF (upsertF f k w) k2 = lookupF f k2 := by
  intro f
  induction f with
  | nil =>
    intro k k2 w hne
    have h2 : k ≠ k2 := fun h => hne h.symm
    simp [upsertF, lookupF, h2]
  | cons p tl ih =>
    intro k k2 w hne
    obtain ⟨pk, pv⟩ := p
    by_cases hk : pk = k
    · subst hk
      have h2 : pk ≠ k2 := fun h => hne h.symm
      simp [upsertF, lookupF, h2]
    · by_cases h3 : pk = k2
      · subst h3; simp [upsertF, hk, lookupF]
      · simp [upsertF, hk, lookupF, h3, ih hne]

theorem upsertF_eq_setF : ∀ {f : Fields} {k : String} {v w : JVal},
    lookupF f k = some v → upsertF f k w = setF f k w := by
  intro f
  induction f with
  | nil => intro k v w h; simp [lookupF] at h
  | cons p tl ih =>
    intro k v w h
    obtain ⟨pk, pv⟩ := p
    by_cases hk : pk = k
    · subst hk; simp [upsertF, setF]
    · simp only [lookupF, if_neg hk] at h
      simp [upsertF, setF, hk, ih h]

theorem keysF_upsertF_fresh : ∀ {f : Fields} {k : String} {w : JVal},
    lookupF f k = none → keysF (upsertF f k w) = keysF f ++ [k] := by
  intro f
  induction f with
  | nil => intro k w _; simp [upsertF, keysF]
  | cons p tl ih =>
    intro k w h
    obtain ⟨pk, pv⟩ := p
    by_cases hk : pk = k
    · subst hk; simp [lookupF] at h
    · simp only [lookupF, if_neg hk] at h
      simp [upsertF, hk, keysF, ih h]

theorem strNodup_append_singleton : ∀ {l : List String} {k : String},
    strNodup l = true → k ∉ l → strNodup (l ++ [k]) = true := by
  intro l
  induction l with
  | nil => intro k _ _; simp [strNodup]
  | cons a tl ih =>
    intro k hnd hk
    rw [strNodup_cons_iff] at hnd
    rw [List.cons_append, strNodup_cons_iff]
    refine ⟨?_, ih hnd.2 (fun h => hk (List.mem_cons_of_mem _ h))⟩
    intro hc
    rcases List.mem_append.mp hc with h1 | h2
    · exact hnd.1 h1
    · simp at h2
      exact hk (by simp [h2])

/-!
Size, well-formedness and `pyEq` lemmas.
-/

theorem sizeV_pos : ∀ v : JVal, 1 ≤ sizeV v := by
  intro v
  cases v <;> simp [sizeV]

theorem sizeV_lt_of_mem_fields : ∀ {f : Fields} {k : String} {v : JVal},
    (k, v) ∈ f → sizeV v < sizeV (.obj f) := by
  intro f
  induction f with
  | nil => intro k v h; simp at h
  | cons p tl ih =>
    intro k v h
    obtain ⟨pk, pv⟩ := p
    show sizeV v < sizeV pv + sizeFields tl + 1 + 1
    rcases List.mem_cons.mp h with heq | hm
    · cases heq; omega
    · have h2 := ih hm
      have h3 : sizeV (JVal.obj tl) = sizeFields tl + 1 := rfl
      omega

theorem sizeV_lt_of_mem_elems : ∀ {a : List JVal} {v : JVal},
    v ∈ a → sizeV v < sizeV (.arr a) := by
  intro a
  induction a with
  | nil => intro v h; simp at h
  | cons x tl ih =>
    intro v h
    show sizeV v < sizeV x + sizeElems tl + 1 + 1
    rcases List.mem_cons.mp h with heq | hm
    · cases heq; omega
    · have h2 := ih hm
      have h3 : sizeV (JVal.arr tl) = sizeElems tl + 1 := rfl
      omega

theorem wfV_obj_parts {f : Fields} (h : wfV (.obj f) = true) :
    strNodup (keysF f) = true ∧ wfFields f = true := by
  have h2 : (strNodup (keysF f) && wfFields f) = true := h
  rw [Bool.and_eq_true] at h2
  exact h2

theorem wfFields_mem : ∀ {f : Fields} {k : String} {v : JVal},
    wfFields f = true → (k, v) ∈ f → wfV v = true := by
  intro f
  induction f with
  | nil => intro k v _ h; simp at h
  | cons p tl ih =>
    intro k v hwf h
    obtain ⟨pk, pv⟩ := p
    have h2 : (wfV pv && wfFields tl) = true := hwf
    rw [Bool.and_eq_true] at h2
    rcases List.mem_cons.mp h with heq | hm
    · cases heq; exact h2.1
    · exact ih h2.2 hm

theorem wfElems_mem : ∀ {a : List JVal} {v : JVal},
    wfElems a = true → v ∈ a → wfV v = true := by
  intro a
  induction a with
  | nil => intro v _ h; simp at h
  | cons x tl ih =>
    intro v hwf h
    have h2 : (wfV x && wfElems tl) = true := hwf
    rw [Bool.and_eq_true] at h2
    rcases List.mem_cons.mp h with heq | hm
    · cases heq; exact h2.1
    · exact ih h2.2 hm

theorem pyEq_refl_aux : ∀ (N : Nat) (v : JVal), sizeV v ≤ N → wfV v = true →
    pyEq v v = true := by
  intro N
  induction N with
  | zero =>
    intro v h _
    have := sizeV_pos v
    omega
  | succ n IH =>
    intro v hsz hwf
    cases v with
    | num q => simp [pyEq]
    | bool b => simp [pyEq]
    | str s => simp [pyEq]
    | null => simp [pyEq]
    | obj f =>
      obtain ⟨hnd, hflds⟩ := wfV_obj_parts hwf
      show (pyEqSub f f && keysSub f f) = true
      rw [Bool.and_eq_true]
      constructor
      · have hsub : ∀ sub : Fields, (∀ p, p ∈ sub → p ∈ f) → pyEqSub sub f = true := by
          intro sub
          induction sub with
          | nil => intro _; rfl
          | cons p tl ihs =>
            intro hmem
            obtain ⟨pk, pv⟩ := p
            have hmf : (pk, pv) ∈ f := hmem _ (List.mem_cons_self _ _)
            have hl : lookupF f pk = some pv := lookupF_of_mem_nodup hnd hmf
            have hszv : sizeV pv ≤ n := by
              have := sizeV_lt_of_mem_fields hmf
              omega
            have hpv : pyEq pv pv = true :=
              IH pv hszv (wfFields_mem hflds hmf)
            have htl : pyEqSub tl f = true :=
              ihs (fun q hq => hmem q (List.mem_cons_of_mem _ hq))
            show ((match lookupF f pk with
                   | some w => pyEq pv w
                   | none => false) && pyEqSub tl f) = true
            rw [hl]
            show (pyEq pv pv && pyEqSub tl f) = true
            rw [hpv, htl]
            rfl
        exact hsub f (fun p hp => hp)
      · rw [keysSub, List.all_eq_true]
        intro p hp
        obtain ⟨pk, pv⟩ := p
        simpa using lookupF_isSome_of_mem hp
    | arr a =>
      have helems : wfElems a = true := hwf
      show pyEqElems a a = true
      have hsub : ∀ l : List JVal, (∀ v, v ∈ l → v ∈ a) → pyEqElems l l = true := by
        intro l
        induction l with
        | nil => intro _; rfl
        | cons x tl ihs =>
          intro hmem
          have hma : x ∈ a := hmem _ (List.mem_cons_self _ _)
          have hszv : sizeV x ≤ n := by
            have := sizeV_lt_of_mem_elems hma
            omega
          show (pyEq x x && pyEqElems tl tl) = true
          rw [Bool.and_eq_true]
          exact ⟨IH x hszv (wfElems_mem helems hma),
                 ihs (fun q hq => hmem q (List.mem_cons_of_mem _ hq))⟩
      exact hsub a (fun v hv => hv)

/-- `pyEq` is reflexive on well-formed documents (duplicate keys could defeat
it, but Python dicts cannot have any). -/
theorem pyEq_refl (v : JVal) (h : wfV v = true) : pyEq v v = true :=
  pyEq_refl_aux (sizeV v) v le_rfl h

theorem pyEqSub_of_mem : ∀ {f g : Fields},
    (∀ k v, (k, v) ∈ f → ∃ w, lookupF g k = some w ∧ pyEq v w = true) →
    pyEqSub f g = true := by
  intro f g
  induction f with
  | nil => intro _; rfl
  | cons p tl ih =>
    intro h
    obtain ⟨pk, pv⟩ := p
    obtain ⟨w, hw, hp⟩ := h pk pv (List.mem_cons_self _ _)
    have htl : pyEqSub tl g = true :=
      ih (fun k v hv => h k v (List.mem_cons_of_mem _ hv))
    show ((match lookupF g pk with
           | some w => pyEq pv w
           | none => false) && pyEqSub tl g) = true
    rw [hw]
    show (pyEq pv w && pyEqSub tl g) = true
    rw [hp, htl]
    rfl

/-- Sufficient pointwise condition for Python dict equality: the left dict
has duplicate-free keys and the two lookups agree (under `pyEq`) at every
key. -/
theorem pyEq_obj_of_lookups {f g : Fields} (hnd : strNodup (keysF f) = true)
    (h : ∀ k, optPyEq (lookupF f k) (lookupF g k) = true) :
    pyEq (.obj f) (.obj g) = true := by
  show (pyEqSub f g && keysSub g f) = true
  rw [Bool.and_eq_true]
  constructor
  · apply pyEqSub_of_mem
    intro k v hm
    have hl := lookupF_of_mem_nodup hnd hm
    have hk := h k
    rw [hl] at hk
    cases hg : lookupF g k with
    | none => rw [hg] at hk; simp [optPyEq] at hk
    | some w =>
      rw [hg] at hk
      exact ⟨w, rfl, by simpa [optPyEq] using hk⟩
  · rw [keysSub, List.all_eq_true]
    intro p hp
    obtain ⟨pk, pv⟩ := p
    have hks := lookupF_isSome_of_mem hp
    have hk := h pk
    cases hf : lookupF f pk with
    | some v => simp [hf]
    | none =>
      rw [hf] at hk
      cases hg : lookupF g pk with
      | none => rw [hg] at hks; simp at hks
      | some w => rw [hg] at hk; simp [optPyEq] at hk

theorem goodOp_under (t : Tok) (op : Op) (h : goodOp op = true) :
    goodOp (Op.under t op) = true := by
  cases op <;> simp_all [Op.under, goodOp]

theorem applyOps_append_ok : ∀ (l1 : List Op) {d d1 : JVal} (l2 : List Op),
    applyOps d l1 = .ok d1 → applyOps d (l1 ++ l2) = applyOps d1 l2 := by
  intro l1
  induction l1 with
  | nil =>
    intro d d1 l2 h
    have h2 : (Except.ok d : Except PyErr JVal) = .ok d1 := h
    cases h2
    rfl
  | cons op tl ih =>
    intro d d1 l2 h
    cases hop : applyOp d op with
    | error e =>
      simp only [applyOps, hop] at h
      exact Except.noConfusion h
    | ok d2 =>
      have hstep : applyOps d (op :: tl) = applyOps d2 tl := by
        simp only [applyOps, hop]
      rw [hstep] at h
      rw [List.cons_append]
      have hstep2 : applyOps d (op :: (tl ++ l2)) = applyOps d2 (tl ++ l2) := by
        simp only [applyOps, hop]
      rw [hstep2]
      exact ih l2 h

theorem doReplace_nil (s v : JVal) : doReplace s [] v = .ok v := by
  cases s <;> rfl

theorem applyOp_under_key {h : Fields} {k : String} {sub d : JVal} {op : Op}
    (hgood : goodOp op = true) (hl : lookupF h k = some sub)
    (happ : applyOp sub op = .ok d) :
    applyOp (.obj h) (op.under (.key k)) = .ok (.obj (setF h k d)) := by
  cases op with
  | add p v =>
    cases p with
    | nil => simp [goodOp] at hgood
    | cons t rest =>
      have happ2 : doAdd sub (t :: rest) v = .ok d := happ
      show doAdd (.obj h) (.key k :: t :: rest) v = .ok (.obj (setF h k d))
      have hstep : doAdd (.obj h) (.key k :: t :: rest) v
          = (match lookupF h k with
             | some s => (doAdd s (t :: rest) v).map (fun s2 => JVal.obj (setF h k s2))
             | none => .error (.patchError "member does not exist")) := rfl
      rw [hstep, hl]
      show (doAdd sub (t :: rest) v).map (fun s2 => JVal.obj (setF h k s2))
        = .ok (.obj (setF h k d))
      rw [happ2]
      rfl
  | remove p =>
    cases p with
    | nil => simp [goodOp] at hgood
    | cons t rest =>
      have happ2 : doRemove sub (t :: rest) = .ok d := happ
      show doRemove (.obj h) (.key k :: t :: rest) = .ok (.obj (setF h k d))
      have hstep : doRemove (.obj h) (.key k :: t :: rest)
          = (match lookupF h k with
             | some s => (doRemove s (t :: rest)).map (fun s2 => JVal.obj (setF h k s2))
             | none => .error (.patchError "member does not exist")) := rfl
      rw [hstep, hl]
      show (doRemove sub (t :: rest)).map (fun s2 => JVal.obj (setF h k s2))
        = .ok (.obj (setF h k d))
      rw [happ2]
      rfl
  | replace p v =>
    cases p with
    | nil =>
      have happ2 : (Except.ok v : Except PyErr JVal) = .ok d := by
        rw [← doReplace_nil sub v]
        exact happ
      injection happ2 with hvd
      subst hvd
      show doReplace (.obj h) [.key k] v = .ok (.obj (setF h k v))
      have hstep : doReplace (.obj h) [.key k] v
          = (match lookupF h k with
             | some _ => .ok (.obj (setF h k v))
             | none => .error (.patchError "member does not exist")) := rfl
      rw [hstep, hl]
    | cons t rest =>
      have happ2 : doReplace sub (t :: rest) v = .ok d := happ
      show doReplace (.obj h) (.key k :: t :: rest) v = .ok (.obj (setF h k d))
      have hstep : doReplace (.obj h) (.key k :: t :: rest) v
          = (match lookupF h k with
             | some s => (doReplace s (t :: rest) v).map (fun s2 => JVal.obj (setF h k s2))
             | none => .error (.patchError "member does not exist")) := rfl
      rw [hstep, hl]
      show (doReplace sub (t :: rest) v).map (fun s2 => JVal.obj (setF h k s2))
        = .ok (.obj (setF h k d))
      rw [happ2]
      rfl
  | move src p => simp [goodOp] at hgood
  | copy src p => simp [goodOp] at hgood
  | test p v => simp [goodOp] at hgood

theorem applyOps_under_key (l : List Op) : ∀ (h : Fields) (k : String) (sub sub' : JVal),
    (∀ op ∈ l, goodOp op = true) → lookupF h k = some sub →
    applyOps sub l = .ok sub' →
    applyOps (.obj h) (l.map (Op.under (.key k))) = .ok (.obj (setF h k sub')) := by
  induction l with
  | nil =>
    intro h k sub sub' _ hl happ
    have h2 : (Except.ok sub : Except PyErr JVal) = .ok sub' := happ
    cases h2
    show Except.ok (JVal.obj h) = .ok (.obj (setF h k sub))
    rw [setF_self hl]
  | cons op tl ih =>
    intro h k sub sub' hgood hl happ
    cases hop : applyOp sub op with
    | error e =>
      simp only [applyOps, hop] at happ
      exact Except.noConfusion happ
    | ok d2 =>
      have hstep : applyOps sub (op :: tl) = applyOps d2 tl := by
        simp only [applyOps, hop]
      rw [hstep] at happ
      have h1 : applyOp (.obj h) (op.under (.key k)) = .ok (.obj (setF h k d2)) :=
        applyOp_under_key (hgood op (List.mem_cons_self _ _)) hl hop
      rw [List.map_cons]
      have hstep2 : applyOps (.obj h) (op.under (.key k) :: tl.map (Op.under (.key k)))
          = applyOps (.obj (setF h k d2)) (tl.map (Op.under (.key k))) := by
        simp only [applyOps, h1]
      rw [hstep2]
      have h2 : lookupF (setF h k d2) k = some d2 := lookupF_setF_self hl
      rw [ih (setF h k d2) k d2 sub'
            (fun o ho => hgood o (List.mem_cons_of_mem _ ho)) h2 happ, setF_setF]

theorem get_append_len : ∀ (pre : List JVal) (x : JVal) (rest : List JVal),
    (pre ++ x :: rest).get? pre.length = some x := by
  intro pre
  induction pre with
  | nil => intro x rest; rfl
  | cons a tl ih => intro x rest; simpa [List.get?] using ih x rest

theorem set_append_len : ∀ (pre : List JVal) (x r : JVal) (rest : List JVal),
    (pre ++ x :: rest).set pre.length r = pre ++ r :: rest := by
  intro pre
  induction pre with
  | nil => intro x r rest; rfl
  | cons a tl ih => intro x r rest; simp [List.set, ih]

theorem applyOp_under_idx (pre rest : List JVal) {sub d : JVal} {op : Op}
    (hgood : goodOp op = true) (happ : applyOp sub op = .ok d) :
    applyOp (.arr (pre ++ sub :: rest)) (op.under (.idx pre.length))
      = .ok (.arr (pre ++ d :: rest)) := by
  have hget := get_append_len pre sub rest
  have hset := set_append_len pre sub d rest
  cases op with
  | add p v =>
    cases p with
    | nil => simp [goodOp] at hgood
    | cons t prest =>
      have happ2 : doAdd sub (t :: prest) v = .ok d := happ
      show doAdd (.arr (pre ++ sub :: rest)) (.idx pre.length :: t :: prest) v
        = .ok (.arr (pre ++ d :: rest))
      have hstep : doAdd (.arr (pre ++ sub :: rest)) (.idx pre.length :: t :: prest) v
          = (match (pre ++ sub :: rest).get? pre.length with
             | some s => (doAdd s (t :: prest) v).map
                 (fun s2 => JVal.arr ((pre ++ sub :: rest).set pre.length s2))
             | none => .error (.patchError "index out of range")) := rfl
      rw [hstep, hget]
      show (doAdd sub (t :: prest) v).map
          (fun s2 => JVal.arr ((pre ++ sub :: rest).set pre.length s2))
        = .ok (.arr (pre ++ d :: rest))
      rw [happ2]
      show Except.ok (JVal.arr ((pre ++ sub :: rest).set pre.length d)) = _
      rw [hset]
  | remove p =>
    cases p with
    | nil => simp [goodOp] at hgood
    | cons t prest =>
      have happ2 : doRemove sub (t :: prest) = .ok d := happ
      show doRemove (.arr (pre ++ sub :: rest)) (.idx pre.length :: t :: prest)
        = .ok (.arr (pre ++ d :: rest))
      have hstep : doRemove (.arr (pre ++ sub :: rest)) (.idx pre.length :: t :: prest)
          = (match (pre ++ sub :: rest).get? pre.length with
             | some s => (doRemove s (t :: prest)).map
                 (fun s2 => JVal.arr ((pre ++ sub :: rest).set pre.length s2))
             | none => .error (.patchError "index out of range")) := rfl
      rw [hstep, hget]
      show (doRemove sub (t :: prest)).map
          (fun s2 => JVal.arr ((pre ++ sub :: rest).set pre.length s2))
        = .ok (.arr (pre ++ d :: rest))
      rw [happ2]
      show Except.ok (JVal.arr ((pre ++ sub :: rest).set pre.length d)) = _
      rw [hset]
  | replace p v =>
    cases p with
    | nil =>
      have happ2 : (Except.ok v : Except PyErr JVal) = .ok d := by
        rw [← doReplace_nil sub v]
        exact happ
      injection happ2 with hvd
      subst hvd
      show doReplace (.arr (pre ++ sub :: rest)) [.idx pre.length] v
        = .ok (.arr (pre ++ v :: rest))
      have hlen : pre.length < (pre ++ sub :: rest).length := by
        rw [List.length_append, List.length_cons]
        omega
      have hstep : doReplace (.arr (pre ++ sub :: rest)) [.idx pre.length] v
          = (if pre.length < (pre ++ sub :: rest).length then
              .ok (.arr ((pre ++ sub :: rest).set pre.length v))
             else .error (.patchError "index out of range")) := rfl
      rw [hstep, if_pos hlen, set_append_len]
    | cons t prest =>
      have happ2 : doReplace sub (t :: prest) v = .ok d := happ
      show doReplace (.arr (pre ++ sub :: rest)) (.idx pre.length :: t :: prest) v
        = .ok (.arr (pre ++ d :: rest))
      have hstep : doReplace (.arr (pre ++ sub :: rest)) (.idx pre.length :: t :: prest) v
          = (match (pre ++ sub :: rest).get? pre.length with
             | some s => (doReplace s (t :: prest) v).map
                 (fun s2 => JVal.arr ((pre ++ sub :: rest).set pre.length s2))
             | none => .error (.patchError "index out of range")) := rfl
      rw [hstep, hget]
      show (doReplace sub (t :: prest) v).map
          (fun s2 => JVal.arr ((pre ++ sub :: rest).set pre.length s2))
        = .ok (.arr (pre ++ d :: rest))
      rw [happ2]
      show Except.ok (JVal.arr ((pre ++ sub :: rest).set pre.length d)) = _
      rw [hset]
  | move src p => simp [goodOp] at hgood
  | copy src p => simp [goodOp] at hgood
  | test p v => simp [goodOp] at hgood

theorem applyOps_under_idx (l : List Op) : ∀ (pre rest : List JVal) (sub sub' : JVal),
    (∀ op ∈ l, goodOp op = true) → applyOps sub l = .ok sub' →
    applyOps (.arr (pre ++ sub :: rest)) (l.map (Op.under (.idx pre.length)))
      = .ok (.arr (pre ++ sub' :: rest)) := by
  induction l with
  | nil =>
    intro pre rest sub sub' _ happ
    have h2 : (Except.ok sub : Except PyErr JVal) = .ok sub' := happ
    cases h2
    rfl
  | cons op tl ih =>
    intro pre rest sub sub' hgood happ
    cases hop : applyOp sub op with
    | error e =>
      simp only [applyOps, hop] at happ
      exact Except.noConfusion happ
    | ok d2 =>
      have hstep : applyOps sub (op :: tl) = applyOps d2 tl := by
        simp only [applyOps, hop]
      rw [hstep] at happ
      have h1 := applyOp_under_idx pre rest
        (hgood op (List.mem_cons_self _ _)) hop
      rw [List.map_cons]
      have hstep2 : applyOps (.arr (pre ++ sub :: rest))
            (op.under (.idx pre.length) :: tl.map (Op.under (.idx pre.length)))
          = applyOps (.arr (pre ++ d2 :: rest)) (tl.map (Op.under (.idx pre.length))) := by
        simp only [applyOps, h1]
      rw [hstep2]
      exact ih pre rest d2 sub' (fun o ho => hgood o (List.mem_cons_of_mem _ ho)) happ

theorem goodOp_fallback (o m : JVal)
    (h : diffOps o m = if pyEq o m then [] else [.replace [] m]) :
    ∀ op ∈ diffOps o m, goodOp op = true := by
  intro op hop
  rw [h] at hop
  by_cases hpe : pyEq o m = true
  · simp [hpe] at hop
  · rw [Bool.not_eq_true] at hpe
    simp [hpe] at hop
    subst hop
    rfl

/-- Every operation emitted by the structural diff is `replace`, or
`add`/`remove` at a non-root path. -/
theorem diffOps_good_aux : ∀ (N : Nat) (o m : JVal), sizeV o ≤ N →
    ∀ op ∈ diffOps o m, goodOp op = true := by
  intro N
  induction N with
  | zero =>
    intro o m hsz
    have := sizeV_pos o
    omega
  | succ n IH =>
    intro o m hsz
    cases o with
    | obj f =>
      cases m with
      | obj g =>
        intro op hop
        have hsplit : diffOps (.obj f) (.obj g) = diffFields f g ++ addsFor g f := rfl
        rw [hsplit] at hop
        rcases List.mem_append.mp hop with h1 | h2
        · have hfs : ∀ (fs : Fields), (∀ k v, (k, v) ∈ fs → sizeV v ≤ n) →
              ∀ op2 ∈ diffFields fs g, goodOp op2 = true := by
            intro fs
            induction fs with
            | nil => intro _ op2 hop2; simp [diffFields] at hop2
            | cons p tl ihs =>
              intro hb op2 hop2
              obtain ⟨pk, pv⟩ := p
              have heq : diffFields ((pk, pv) :: tl) g
                  = (match lookupF g pk with
                     | some w => (diffOps pv w).map (Op.under (.key pk))
                     | none => [.remove [.key pk]]) ++ diffFields tl g := rfl
              rw [heq] at hop2
              rcases List.mem_append.mp hop2 with hh | ht
              · cases hw : lookupF g pk with
                | none =>
                  rw [hw] at hh
                  simp at hh
                  subst hh
                  rfl
                | some w =>
                  rw [hw] at hh
                  simp only [List.mem_map] at hh
                  obtain ⟨op3, hop3, hund⟩ := hh
                  subst hund
                  exact goodOp_under _ _
                    (IH pv w (hb pk pv (List.mem_cons_self _ _)) op3 hop3)
              · exact ihs (fun k v hkv => hb k v (List.mem_cons_of_mem _ hkv)) op2 ht
          apply hfs f ?_ op h1
          intro k v hkv
          have := sizeV_lt_of_mem_fields hkv
          omega
        · have hgs : ∀ (gs : Fields), ∀ op2 ∈ addsFor gs f, goodOp op2 = true := by
            intro gs
            induction gs with
            | nil => intro op2 hop2; simp [addsFor] at hop2
            | cons p tl ihs =>
              intro op2 hop2
              obtain ⟨pk, pw⟩ := p
              have heq : addsFor ((pk, pw) :: tl) f
                  = (match lookupF f pk with
                     | some _ => ([] : List Op)
                     | none => [.add [.key pk] pw]) ++ addsFor tl f := rfl
              rw [heq] at hop2
              rcases List.mem_append.mp hop2 with hh | ht
              · cases hw : lookupF f pk with
                | none =>
                  rw [hw] at hh
                  simp at hh
                  subst hh
                  rfl
                | some w2 =>
                  rw [hw] at hh
                  simp at hh
              · exact ihs op2 ht
          exact hgs g op h2
      | num q => exact goodOp_fallback _ _ rfl
      | bool b => exact goodOp_fallback _ _ rfl
      | str t => exact goodOp_fallback _ _ rfl
      | null => exact goodOp_fallback _ _ rfl
      | arr b => exact goodOp_fallback _ _ rfl
    | arr a =>
      cases m with
      | arr b =>
        intro op hop
        have hsplit : diffOps (.arr a) (.arr b)
            = if a.length = b.length then diffElems 0 a b
              else [.replace [] (.arr b)] := rfl
        rw [hsplit] at hop
        by_cases hlen : a.length = b.length
        · rw [if_pos hlen] at hop
          have hxs : ∀ (xs ys : List JVal) (i : Nat), (∀ v ∈ xs, sizeV v ≤ n) →
              ∀ op2 ∈ diffElems i xs ys, goodOp op2 = true := by
            intro xs
            induction xs with
            | nil => intro ys i _ op2 hop2; simp [diffElems] at hop2
            | cons x tl ihs =>
              intro ys i hb op2 hop2
              cases ys with
              | nil => simp [diffElems] at hop2
              | cons y ytl =>
                have heq : diffElems i (x :: tl) (y :: ytl)
                    = (diffOps x y).map (Op.under (.idx i)) ++ diffElems (i + 1) tl ytl := rfl
                rw [heq] at hop2
                rcases List.mem_append.mp hop2 with hh | ht
                · simp only [List.mem_map] at hh
                  obtain ⟨op3, hop3, hund⟩ := hh
                  subst hund
                  exact goodOp_under _ _
                    (IH x y (hb x (List.mem_cons_self _ _)) op3 hop3)
                · exact ihs ytl (i + 1) (fun v hv => hb v (List.mem_cons_of_mem _ hv)) op2 ht
          apply hxs a b 0 ?_ op hop
          intro v hv
          have := sizeV_lt_of_mem_elems hv
          omega
        · rw [if_neg hlen] at hop
          simp at hop
          subst hop
          rfl
      | num q => exact goodOp_fallback _ _ rfl
      | bool b => exact goodOp_fallback _ _ rfl
      | str t => exact goodOp_fallback _ _ rfl
      | null => exact goodOp_fallback _ _ rfl
      | obj g => exact goodOp_fallback _ _ rfl
    | num q => exact goodOp_fallback _ _ rfl
    | bool b => exact goodOp_fallback _ _ rfl
    | str t => exact goodOp_fallback _ _ rfl
    | null => exact goodOp_fallback _ _ rfl

theorem diffOps_good (o m : JVal) : ∀ op ∈ diffOps o m, goodOp op = true :=
  diffOps_good_aux (sizeV o) o m le_rfl

/-- Applying the per-key part of the dict diff: every key of `fs` ends up
`pyEq`-matched with `g` (removed if `g` lacks it), every other key is
untouched. -/
theorem diffFields_apply (g : Fields) (n : Nat)
    (RT : ∀ v w, sizeV v ≤ n → wfV v = true → wfV w = true →
          ∃ r, applyOps v (diffOps v w) = .ok r ∧ pyEq r w = true)
    (hwg : wfFields g = true) :
    ∀ (fs h : Fields),
      strNodup (keysF fs) = true →
      (∀ k v, (k, v) ∈ fs → lookupF h k = some v) →
      (∀ k v, (k, v) ∈ fs → sizeV v ≤ n ∧ wfV v = true) →
      strNodup (keysF h) = true →
      ∃ h2, applyOps (.obj h) (diffFields fs g) = .ok (.obj h2)
        ∧ (∀ k, k ∈ keysF fs → optPyEq (lookupF h2 k) (lookupF g k) = true)
        ∧ (∀ k, k ∉ keysF fs → lookupF h2 k = lookupF h k)
        ∧ strNodup (keysF h2) = true
        ∧ (∀ k, k ∈ keysF h2 → k ∈ keysF h) := by
  intro fs
  induction fs with
  | nil =>
    intro h _ _ _ hndh
    refine ⟨h, rfl, ?_, fun k _ => rfl, hndh, fun k hk => hk⟩
    intro k hk
    simp [keysF] at hk
  | cons p fs' ih =>
    intro h hndfs0 hlook hsz hndh
    obtain ⟨pk, pv⟩ := p
    rw [show keysF ((pk, pv) :: fs') = pk :: keysF fs' from rfl, strNodup_cons_iff] at hndfs0
    obtain ⟨hpknot, hndfs⟩ := hndfs0
    have hlpk : lookupF h pk = some pv := hlook pk pv (List.mem_cons_self _ _)
    cases hw : lookupF g pk with
    | none =>
      have heq2 : diffFields ((pk, pv) :: fs') g
          = [.remove [.key pk]] ++ diffFields fs' g := by
        show (match lookupF g pk with
              | some w => (diffOps pv w).map (Op.under (.key pk))
              | none => [Op.remove [.key pk]]) ++ diffFields fs' g
            = [.remove [.key pk]] ++ diffFields fs' g
        rw [hw]
      have hstep1 : applyOps (.obj h) [.remove [.key pk]] = .ok (.obj (eraseF h pk)) := by
        have h1 : applyOp (.obj h) (.remove [.key pk]) = .ok (.obj (eraseF h pk)) := by
          show doRemove (.obj h) [.key pk] = _
          have hun : doRemove (.obj h) [.key pk]
              = (match lookupF h pk with
                 | some _ => .ok (.obj (eraseF h pk))
                 | none => .error (.patchError "member does not exist")) := rfl
          rw [hun, hlpk]
        simp only [applyOps, h1]
      obtain ⟨h2, hap2, hmod2, hpres2, hnd2, hsub2⟩ := ih (eraseF h pk)
        hndfs
        (fun k v hkv => by
          have hne : k ≠ pk := by
            intro he
            subst he
            exact hpknot (mem_keysF.mpr ⟨v, hkv⟩)
          rw [lookupF_eraseF_ne hne]
          exact hlook k v (List.mem_cons_of_mem _ hkv))
        (fun k v hkv => hsz k v (List.mem_cons_of_mem _ hkv))
        (strNodup_eraseF hndh)
      refine ⟨h2, ?_, ?_, ?_, hnd2, ?_⟩
      · rw [heq2, applyOps_append_ok _ _ hstep1]
        exact hap2
      · intro k hk
        rw [show keysF ((pk, pv) :: fs') = pk :: keysF fs' from rfl] at hk
        rcases List.mem_cons.mp hk with heqk | hin
        · subst heqk
          rw [hpres2 _ hpknot, lookupF_eraseF_self hndh, hw]
          rfl
        · exact hmod2 _ hin
      · intro k hk
        rw [show keysF ((pk, pv) :: fs') = pk :: keysF fs' from rfl] at hk
        have hk1 : k ≠ pk := fun he => hk (he ▸ List.mem_cons_self _ _)
        have hk2 : k ∉ keysF fs' := fun hin => hk (List.mem_cons_of_mem _ hin)
        rw [hpres2 _ hk2, lookupF_eraseF_ne hk1]
      · intro k hk
        exact keysF_eraseF_mem (hsub2 _ hk)
    | some w =>
      have hmw : (pk, w) ∈ g := lookupF_mem hw
      have hwfw : wfV w = true := wfFields_mem hwg hmw
      obtain ⟨hszpv, hwfpv⟩ := hsz pk pv (List.mem_cons_self _ _)
      obtain ⟨r, hr, hpyr⟩ := RT pv w hszpv hwfpv hwfw
      have heq2 : diffFields ((pk, pv) :: fs') g
          = (diffOps pv w).map (Op.under (.key pk)) ++ diffFields fs' g := by
        show (match lookupF g pk with
              | some w => (diffOps pv w).map (Op.under (.key pk))
              | none => [Op.remove [.key pk]]) ++ diffFields fs' g
            = (diffOps pv w).map (Op.under (.key pk)) ++ diffFields fs' g
        rw [hw]
      have hstep1 : applyOps (.obj h) ((diffOps pv w).map (Op.under (.key pk)))
          = .ok (.obj (setF h pk r)) :=
        applyOps_under_key _ _ _ _ _ (diffOps_good pv w) hlpk hr
      obtain ⟨h2, hap2, hmod2, hpres2, hnd2, hsub2⟩ := ih (setF h pk r)
        hndfs
        (fun k v hkv => by
          have hne : k ≠ pk := by
            intro he
            subst he
            exact hpknot (mem_keysF.mpr ⟨v, hkv⟩)
          rw [lookupF_setF_ne hne]
          exact hlook k v (List.mem_cons_of_mem _ hkv))
        (fun k v hkv => hsz k v (List.mem_cons_of_mem _ hkv))
        (by rw [keysF_setF]; exact hndh)
      refine ⟨h2, ?_, ?_, ?_, hnd2, ?_⟩
      · rw [heq2, applyOps_append_ok _ _ hstep1]
        exact hap2
      · intro k hk
        rw [show keysF ((pk, pv) :: fs') = pk :: keysF fs' from rfl] at hk
        rcases List.mem_cons.mp hk with heqk | hin
        · subst heqk
          rw [hpres2 _ hpknot, lookupF_setF_self hlpk, hw]
          show pyEq r w = true
          exact hpyr
        · exact hmod2 _ hin
      · intro k hk
        rw [show keysF ((pk, pv) :: fs') = pk :: keysF fs' from rfl] at hk
        have hk1 : k ≠ pk := fun he => hk (he ▸ List.mem_cons_self _ _)
        have hk2 : k ∉ keysF fs' := fun hin => hk (List.mem_cons_of_mem _ hin)
        rw [hpres2 _ hk2, lookupF_setF_ne hk1]
      · intro k hk
        have := hsub2 _ hk
        rw [keysF_setF] at this
        exact this

/-- Applying the `add` operations for the modified dict's new keys: each
fresh key ends up bound to its new value, everything else is untouched. -/
theorem addsFor_apply (f : Fields) :
    ∀ (gs h : Fields),
      strNodup (keysF gs) = true →
      (∀ k w, (k, w) ∈ gs → lookupF f k = none → lookupF h k = none) →
      strNodup (keysF h) = true →
      ∃ h2, applyOps (.obj h) (addsFor gs f) = .ok (.obj h2)
        ∧ (∀ k w, (k, w) ∈ gs → lookupF f k = none → lookupF h2 k = some w)
        ∧ (∀ k, (k ∉ keysF gs ∨ (lookupF f k).isSome = true) → lookupF h2 k = lookupF h k)
        ∧ strNodup (keysF h2) = true := by
  intro gs
  induction gs with
  | nil =>
    intro h _ _ hndh
    refine ⟨h, rfl, ?_, fun k _ => rfl, hndh⟩
    intro k w hk
    simp at hk
  | cons p gs' ih =>
    intro h hndgs0 hfresh hndh
    obtain ⟨pk, pw⟩ := p
    rw [show keysF ((pk, pw) :: gs') = pk :: keysF gs' from rfl, strNodup_cons_iff] at hndgs0
    obtain ⟨hpknot, hndgs⟩ := hndgs0
    cases hfk : lookupF f pk with
    | some v0 =>
      have heq2 : addsFor ((pk, pw) :: gs') f = ([] : List Op) ++ addsFor gs' f := by
        show (match lookupF f pk with
              | some _ => ([] : List Op)
              | none => [Op.add [.key pk] pw]) ++ addsFor gs' f
            = ([] : List Op) ++ addsFor gs' f
        rw [hfk]
      obtain ⟨h2, hap2, hnew2, hpres2, hnd2⟩ := ih h
        hndgs
        (fun k w hkw hfn => hfresh k w (List.mem_cons_of_mem _ hkw) hfn)
        hndh
      refine ⟨h2, ?_, ?_, ?_, hnd2⟩
      · rw [heq2, List.nil_append]
        exact hap2
      · intro k w hkw hfn
        rcases List.mem_cons.mp hkw with heqk | hin
        · cases heqk
          rw [hfn] at hfk
          exact Option.noConfusion hfk
        · exact hnew2 k w hin hfn
      · intro k hk
        apply hpres2
        rcases hk with hk1 | hk2
        · left
          intro hc
          exact hk1 (List.mem_cons_of_mem _ hc)
        · right
          exact hk2
    | none =>
      have hhk : lookupF h pk = none := hfresh pk pw (List.mem_cons_self _ _) hfk
      have heq2 : addsFor ((pk, pw) :: gs') f = [.add [.key pk] pw] ++ addsFor gs' f := by
        show (match lookupF f pk with
              | some _ => ([] : List Op)
              | none => [Op.add [.key pk] pw]) ++ addsFor gs' f
            = [Op.add [.key pk] pw] ++ addsFor gs' f
        rw [hfk]
      have hstep1 : applyOps (.obj h) [.add [.key pk] pw]
          = .ok (.obj (upsertF h pk pw)) := by
        have h1 : applyOp (.obj h) (.add [.key pk] pw) = .ok (.obj (upsertF h pk pw)) := rfl
        simp only [applyOps, h1]
      have hnd2' : strNodup (keysF (upsertF h pk pw)) = true := by
        rw [keysF_upsertF_fresh hhk]
        exact strNodup_append_singleton hndh ((lookupF_eq_none_iff).mp hhk)
      obtain ⟨h2, hap2, hnew2, hpres2, hnd2⟩ := ih (upsertF h pk pw)
        hndgs
        (fun k w hkw hfn => by
          have hne : k ≠ pk := by
            intro he
            subst he
            exact hpknot (mem_keysF.mpr ⟨w, hkw⟩)
          rw [lookupF_upsertF_ne hne]
          exact hfresh k w (List.mem_cons_of_mem _ hkw) hfn)
        hnd2'
      refine ⟨h2, ?_, ?_, ?_, hnd2⟩
      · rw [heq2, applyOps_append_ok _ _ hstep1]
        exact hap2
      · intro k w hkw hfn
        rcases List.mem_cons.mp hkw with heqk | hin
        · cases heqk
          rw [hpres2 _ (.inl hpknot), lookupF_upsertF_self]
        · exact hnew2 k w hin hfn
      · intro k hk
        have hkne : k ≠ pk := by
          intro he
          subst he
          rcases hk with hk1 | hk2
          · exact hk1 (List.mem_cons_self _ _)
          · rw [hfk] at hk2
            simp at hk2
        have htrans : k ∉ keysF gs' ∨ (lookupF f k).isSome = true := by
          rcases hk with hk1 | hk2
          · left
            intro hc
            exact hk1 (List.mem_cons_of_mem _ hc)
          · right
            exact hk2
        rw [hpres2 _ htrans, lookupF_upsertF_ne hkne]

/-- Applying the positional diff of matching-length lists: the suffix being
diffed becomes `pyEq` to the target, the prefix is untouched. -/
theorem diffElems_apply (n : Nat)
    (RT : ∀ v w, sizeV v ≤ n → wfV v = true → wfV w = true →
          ∃ r, applyOps v (diffOps v w) = .ok r ∧ pyEq r w = true) :
    ∀ (xs ys pre : List JVal),
      xs.length = ys.length →
      (∀ v ∈ xs, sizeV v ≤ n ∧ wfV v = true) →
      (∀ w ∈ ys, wfV w = true) →
      ∃ xs2, applyOps (.arr (pre ++ xs)) (diffElems pre.length xs ys)
          = .ok (.arr (pre ++ xs2))
        ∧ pyEqElems xs2 ys = true := by
  intro xs
  induction xs with
  | nil =>
    intro ys pre hlen _ _
    cases ys with
    | nil => exact ⟨[], rfl, rfl⟩
    | cons y ytl => simp at hlen
  | cons x xtl ih =>
    intro ys pre hlen hxs hys
    cases ys with
    | nil => simp at hlen
    | cons y ytl =>
      obtain ⟨hszx, hwfx⟩ := hxs x (List.mem_cons_self _ _)
      have hwfy : wfV y = true := hys y (List.mem_cons_self _ _)
      obtain ⟨r, hr, hpyr⟩ := RT x y hszx hwfx hwfy
      have heq2 : diffElems pre.length (x :: xtl) (y :: ytl)
          = (diffOps x y).map (Op.under (.idx pre.length))
            ++ diffElems (pre.length + 1) xtl ytl := rfl
      have hstep1 : applyOps (.arr (pre ++ x :: xtl))
            ((diffOps x y).map (Op.under (.idx pre.length)))
          = .ok (.arr (pre ++ r :: xtl)) :=
        applyOps_under_idx _ _ _ _ _ (diffOps_good x y) hr
      have hlen2 : xtl.length = ytl.length := by
        simpa using hlen
      obtain ⟨xs2, hap2, hpy2⟩ := ih ytl (pre ++ [r]) hlen2
        (fun v hv => hxs v (List.mem_cons_of_mem _ hv))
        (fun w hw => hys w (List.mem_cons_of_mem _ hw))
      refine ⟨r :: xs2, ?_, ?_⟩
      · rw [heq2, applyOps_append_ok _ _ hstep1]
        have hshape1 : pre ++ r :: xtl = (pre ++ [r]) ++ xtl := by
          simp
        have hshape2 : pre.length + 1 = (pre ++ [r]).length := by
          simp
        have hshape3 : pre ++ r :: xs2 = (pre ++ [r]) ++ xs2 := by
          simp
        rw [hshape1, hshape2, hshape3]
        exact hap2
      · show (pyEq r y && pyEqElems xs2 ytl) = true
        rw [hpyr, hpy2]
        rfl

/-- Round trip for every pair whose diff falls into the scalar/type-change
arm: equal values produce the empty diff, anything else a whole-value
`replace`. -/
theorem roundtrip_replace (o m : JVal) (hwm : wfV m = true)
    (h : diffOps o m = if pyEq o m then [] else [.replace [] m]) :
    ∃ r, applyOps o (diffOps o m) = .ok r ∧ pyEq r m = true := by
  by_cases hpe : pyEq o m = true
  · refine ⟨o, ?_, hpe⟩
    rw [h, if_pos hpe]
    rfl
  · rw [Bool.not_eq_true] at hpe
    refine ⟨m, ?_, pyEq_refl m hwm⟩
    rw [h, if_neg (by simp [hpe])]
    have h1 : applyOp o (.replace [] m) = .ok m := doReplace_nil o m
    simp only [applyOps, h1]

theorem roundtrip_aux : ∀ (N : Nat) (o m : JVal),
    sizeV o ≤ N → wfV o = true → wfV m = true →
    ∃ r, applyOps o (diffOps o m) = .ok r ∧ pyEq r m = true := by
  intro N
  induction N with
  | zero =>
    intro o m hsz _ _
    have := sizeV_pos o
    omega
  | succ n IH =>
    intro o m hsz hwo hwm
    cases o with
    | obj f =>
      cases m with
      | obj g =>
        obtain ⟨hndf, hwff⟩ := wfV_obj_parts hwo
        obtain ⟨hndg, hwfg⟩ := wfV_obj_parts hwm
        obtain ⟨h1, hap1, hmod1, hpres1, hnd1, hsub1⟩ :=
          diffFields_apply g n IH hwfg f f hndf
            (fun k v hkv => lookupF_of_mem_nodup hndf hkv)
            (fun k v hkv => ⟨by
                have h2 := sizeV_lt_of_mem_fields hkv
                omega,
              wfFields_mem hwff hkv⟩)
            hndf
        obtain ⟨h2, hap2, hnew2, hpres2, hnd2⟩ := addsFor_apply f g h1 hndg
          (fun k w hkw hfn => by
            have hknotf : k ∉ keysF f := (lookupF_eq_none_iff).mp hfn
            rw [hpres1 _ hknotf]
            exact hfn)
          hnd1
        refine ⟨.obj h2, ?_, ?_⟩
        · have hsplit : diffOps (.obj f) (.obj g) = diffFields f g ++ addsFor g f := rfl
          rw [hsplit, applyOps_append_ok _ _ hap1]
          exact hap2
        · apply pyEq_obj_of_lookups hnd2
          intro k
          by_cases hkf : k ∈ keysF f
          · have hfs : (lookupF f k).isSome = true := by
              cases hfk2 : lookupF f k with
              | none => exact absurd ((lookupF_eq_none_iff).mp hfk2) (by simp [hkf])
              | some v => rfl
            rw [hpres2 _ (.inr hfs)]
            exact hmod1 _ hkf
          · have hfn : lookupF f k = none := (lookupF_eq_none_iff).mpr hkf
            cases hgk : lookupF g k with
            | some w =>
              have hmem : (k, w) ∈ g := lookupF_mem hgk
              rw [hnew2 k w hmem hfn]
              show pyEq w w = true
              exact pyEq_refl w (wfFields_mem hwfg hmem)
            | none =>
              have hkg : k ∉ keysF g := (lookupF_eq_none_iff).mp hgk
              rw [hpres2 _ (.inl hkg), hpres1 _ hkf, hfn]
              rfl
      | num q => exact roundtrip_replace _ _ hwm rfl
      | bool b => exact roundtrip_replace _ _ hwm rfl
      | str t => exact roundtrip_replace _ _ hwm rfl
      | null => exact roundtrip_replace _ _ hwm rfl
      | arr b => exact roundtrip_replace _ _ hwm rfl
    | arr a =>
      cases m with
      | arr b =>
        by_cases hlen : a.length = b.length
        · have hsplit : diffOps (.arr a) (.arr b) = diffElems 0 a b := by
            show (if a.length = b.length then diffElems 0 a b
                  else [.replace [] (.arr b)]) = diffElems 0 a b
            rw [if_pos hlen]
          have hwea : wfElems a = true := hwo
          have hweb : wfElems b = true := hwm
          obtain ⟨xs2, hap, hpy⟩ := diffElems_apply n IH a b [] hlen
            (fun v hv => ⟨by
                have h2 := sizeV_lt_of_mem_elems hv
                omega,
              wfElems_mem hwea hv⟩)
            (fun w hw => wfElems_mem hweb hw)
          refine ⟨.arr xs2, ?_, ?_⟩
          · rw [hsplit]
            exact hap
          · show pyEqElems xs2 b = true
            exact hpy
        · refine ⟨.arr b, ?_, pyEq_refl _ hwm⟩
          have hsplit : diffOps (.arr a) (.arr b) = [.replace [] (.arr b)] := by
            show (if a.length = b.length then diffElems 0 a b
                  else [.replace [] (.arr b)]) = [.replace [] (.arr b)]
            rw [if_neg hlen]
          rw [hsplit]
          have h1 : applyOp (.arr a) (.replace [] (.arr b)) = .ok (.arr b) :=
            doReplace_nil _ _
          simp only [applyOps, h1]
      | num q => exact roundtrip_replace _ _ hwm rfl
      | bool b => exact roundtrip_replace _ _ hwm rfl
      | str t => exact roundtrip_replace _ _ hwm rfl
      | null => exact roundtrip_replace _ _ hwm rfl
      | obj g => exact roundtrip_replace _ _ hwm rfl
    | num q => exact roundtrip_replace _ _ hwm rfl
    | bool b => exact roundtrip_replace _ _ hwm rfl
    | str t => exact roundtrip_replace _ _ hwm rfl
    | null => exact roundtrip_replace _ _ hwm rfl

/-- C2: for every pair of scene documents, applying the patch generated
between them back to the original reproduces the modified document:
`apply_patch original (generate_patch original modified)` succeeds and its
result is deep-equal (Python `==`, i.e. `pyEq`) to `modified`.  The
hypotheses are the representation invariant of Python dicts — every mapping
in either document has duplicate-free keys — which holds for every document
a Python program can build. -/
theorem c2_apply_generate_roundtrip (original modified : JVal)
    (ho : wfV original = true) (hm : wfV modified = true) :
    ∃ r, apply_patch original (generate_patch original modified) = .ok r
      ∧ pyEq r modified = true := by
  obtain ⟨r, hap0, hpy⟩ := roundtrip_aux (sizeV original) original modified le_rfl ho hm
  have hap : applyOps original (generate_patch original modified) = .ok r := hap0
  refine ⟨r, ?_, hpy⟩
  cases hops : generate_patch original modified with
  | nil =>
    rw [hops] at hap
    have h2 : (Except.ok original : Except PyErr JVal) = .ok r := hap
    cases h2
    rfl
  | cons op tl =>
    rw [hops] at hap
    have hform : apply_patch original (op :: tl)
        = match applyOps original (op :: tl) with
          | .ok d => (Except.ok d : Except PyErr JVal)
          | .error _ => .error (.valueError "Failed to apply patch") := rfl
    rw [hform, hap]

/-- C2 witness: the round trip instantiated on two concrete scenes
exercising nested dicts, key additions and removals, a scalar change, a
positional list diff and a list-length change. -/
theorem c2_roundtrip_witness :
    ∃ r, apply_patch
        (.obj [("camera", .obj [("lens_mm", .num 50), ("fov", .num 40)]),
               ("color", .obj [("palette", .arr [.str "aa0000", .str "00bb00"])]),
               ("subject", .str "cat")])
        (generate_patch
          (.obj [("camera", .obj [("lens_mm", .num 50), ("fov", .num 40)]),
                 ("color", .obj [("palette", .arr [.str "aa0000", .str "00bb00"])]),
                 ("subject", .str "cat")])
          (.obj [("camera", .obj [("lens_mm", .num 100)]),
                 ("color", .obj [("palette", .arr [.str "aa0000", .str "00bb00", .str "0000cc"])]),
                 ("lighting", .obj [("ambient", .num 1)])]))
      = .ok r
    ∧ pyEq r (.obj [("camera", .obj [("lens_mm", .num 100)]),
                    ("color", .obj [("palette", .arr [.str "aa0000", .str "00bb00", .str "0000cc"])]),
                    ("lighting", .obj [("ambient", .num 1)])]) = true :=
  c2_apply_generate_roundtrip _ _ (by decide) (by decide)

/-!
General form of C10's boolean observation: any leaf that is boolean on both
sides and flips is recorded by `get_numeric_differences`.
-/

theorem lookPath_nil (v : JVal) : lookPath v [] = some v := by
  cases v <;> rfl

theorem numDiffFields_head_mem : ∀ (f : Fields) (g : Fields) (acc k : String)
    (v w : JVal),
    lookupF f k = some v → lookupF g k = some w →
    (isNumV v && isNumV w) = true → pyEq v w = false →
    (extendPath acc k, v, w) ∈ numDiffFields f g acc := by
  intro f
  induction f with
  | nil => intro g acc k v w hv _ _ _; simp [lookupF] at hv
  | cons p tl ih =>
    intro g acc k v w hv hw hnum hne
    obtain ⟨pk, pv⟩ := p
    by_cases hk : pk = k
    · subst hk
      have hv2 : some pv = some v := by
        rw [← hv]
        simp [lookupF]
      injection hv2 with hv3
      subst hv3
      simp only [numDiffFields, hw]
      apply List.mem_append.mpr
      left
      rw [if_pos hnum, if_pos (show (!pyEq pv w) = true by rw [hne]; rfl)]
      exact List.mem_singleton.mpr rfl
    · simp only [lookupF, if_neg hk] at hv
      simp only [numDiffFields]
      apply List.mem_append.mpr
      right
      exact ih g acc k v w hv hw hnum hne

theorem numDiffFields_rec_mem : ∀ (f : Fields) (g : Fields) (acc k : String)
    (vf wf : Fields),
    lookupF f k = some (.obj vf) → lookupF g k = some (.obj wf) →
    ∀ x ∈ numDiffFields vf wf (extendPath acc k), x ∈ numDiffFields f g acc := by
  intro f
  induction f with
  | nil => intro g acc k vf wf hv _ x _; simp [lookupF] at hv
  | cons p tl ih =>
    intro g acc k vf wf hv hw x hx
    obtain ⟨pk, pv⟩ := p
    by_cases hk : pk = k
    · subst hk
      have hv2 : some pv = some (JVal.obj vf) := by
        rw [← hv]
        simp [lookupF]
      injection hv2 with hv3
      subst hv3
      simp only [numDiffFields, hw]
      apply List.mem_append.mpr
      left
      rw [if_neg (show ¬((isNumV (JVal.obj vf) && isNumV (JVal.obj wf)) = true) by
        simp [isNumV])]
      exact hx
    · simp only [lookupF, if_neg hk] at hv
      simp only [numDiffFields]
      apply List.mem_append.mpr
      right
      exact ih g acc k vf wf hv hw x hx

/-- Any leaf that is boolean on both sides (reached through dicts on both
sides) and flips value is recorded by the numeric-difference traversal, with
the pair `(b, !b)`. -/
theorem numDiff_bool_flip_aux : ∀ (p : List String) (o m : JVal) (b : Bool)
    (acc : String),
    p ≠ [] → lookPath o p = some (.bool b) → lookPath m p = some (.bool (!b)) →
    (numPath acc p, .bool b, .bool (!b)) ∈ numDiffVal o m acc := by
  intro p
  induction p with
  | nil => intro o m b acc hne _ _; exact absurd rfl hne
  | cons k tl ih =>
    intro o m b acc _ ho hm
    cases o with
    | obj f =>
      cases m with
      | obj g =>
        have hof : ∃ v, lookupF f k = some v ∧ lookPath v tl = some (.bool b) := by
          cases hl : lookupF f k with
          | none =>
            rw [show lookPath (.obj f) (k :: tl)
                  = (match lookupF f k with
                     | some v => lookPath v tl
                     | none => none) from rfl, hl] at ho
            exact Option.noConfusion ho
          | some v =>
            rw [show lookPath (.obj f) (k :: tl)
                  = (match lookupF f k with
                     | some v => lookPath v tl
                     | none => none) from rfl, hl] at ho
            exact ⟨v, rfl, ho⟩
        have hmg : ∃ w, lookupF g k = some w ∧ lookPath w tl = some (.bool (!b)) := by
          cases hl : lookupF g k with
          | none =>
            rw [show lookPath (.obj g) (k :: tl)
                  = (match lookupF g k with
                     | some v => lookPath v tl
                     | none => none) from rfl, hl] at hm
            exact Option.noConfusion hm
          | some w =>
            rw [show lookPath (.obj g) (k :: tl)
                  = (match lookupF g k with
                     | some v => lookPath v tl
                     | none => none) from rfl, hl] at hm
            exact ⟨w, rfl, hm⟩
        obtain ⟨v, hvl, hvp⟩ := hof
        obtain ⟨w, hwl, hwp⟩ := hmg
        show (numPath acc (k :: tl), .bool b, .bool (!b)) ∈ numDiffFields f g acc
        cases tl with
        | nil =>
          have hvb : v = .bool b := by
            have h2 : some v = some (JVal.bool b) := by
              rw [← lookPath_nil v]
              exact hvp
            injection h2
          have hwb : w = .bool (!b) := by
            have h2 : some w = some (JVal.bool (!b)) := by
              rw [← lookPath_nil w]
              exact hwp
            injection h2
          subst hvb
          subst hwb
          show (numPath acc [k], .bool b, .bool (!b)) ∈ numDiffFields f g acc
          have hpath : numPath acc [k] = extendPath acc k := rfl
          rw [hpath]
          apply numDiffFields_head_mem f g acc k _ _ hvl hwl
          · rfl
          · cases b <;> rfl
        | cons k2 tl2 =>
          have hvo : ∃ vf, v = .obj vf := by
            cases v with
            | obj vf => exact ⟨vf, rfl⟩
            | num q => exact Option.noConfusion hvp
            | bool b2 => exact Option.noConfusion hvp
            | str s2 => exact Option.noConfusion hvp
            | null => exact Option.noConfusion hvp
            | arr a2 => exact Option.noConfusion hvp
          have hwo : ∃ wf, w = .obj wf := by
            cases w with
            | obj wf => exact ⟨wf, rfl⟩
            | num q => exact Option.noConfusion hwp
            | bool b2 => exact Option.noConfusion hwp
            | str s2 => exact Option.noConfusion hwp
            | null => exact Option.noConfusion hwp
            | arr a2 => exact Option.noConfusion hwp
          obtain ⟨vf, hvf⟩ := hvo
          obtain ⟨wf, hwf⟩ := hwo
          subst hvf
          subst hwf
          have hrec := ih (.obj vf) (.obj wf) b (extendPath acc k)
            (by simp) hvp hwp
          have hrec2 : (numPath (extendPath acc k) (k2 :: tl2), JVal.bool b, JVal.bool (!b))
              ∈ numDiffFields vf wf (extendPath acc k) := hrec
          have hpath : numPath acc (k :: k2 :: tl2) = numPath (extendPath acc k) (k2 :: tl2) := rfl
          rw [hpath]
          exact numDiffFields_rec_mem f g acc k vf wf hvl hwl _ hrec2
      | num q => exact Option.noConfusion hm
      | bool b2 => exact Option.noConfusion hm
      | str s2 => exact Option.noConfusion hm
      | null => exact Option.noConfusion hm
      | arr a2 => exact Option.noConfusion hm
    | num q => exact Option.noConfusion ho
    | bool b2 => exact Option.noConfusion ho
    | str s2 => exact Option.noConfusion ho
    | null => exact Option.noConfusion ho
    | arr a2 => exact Option.noConfusion ho

/-- For every pair of scenes: a leaf boolean on both sides that flips is
reported by `get_numeric_differences` under its slash path with the pair
`(b, not b)`. -/
theorem numDiff_bool_flip (p : List String) (o m : JVal) (b : Bool)
    (hne : p ≠ []) (ho : lookPath o p = some (.bool b))
    (hm : lookPath m p = some (.bool (!b))) :
    (numPath "" p, .bool b, .bool (!b)) ∈ get_numeric_differences o m :=
  numDiff_bool_flip_aux p o m b "" hne ho hm

end FormatLab
